import Mathlib

/-!
Verification of the go-rtorrent client against its specification.

The wire-protocol codec (value model, encoder, decoder, extraction
helpers) is modelled from the spec, since only its caller
(src/xmlrpc/client.go) is present in the source tree; the HTTP request
construction and the domain facade (GetTorrent, GetTorrents, SetLabel,
scalar accessors) are embedded from the source files.

Strings are modelled as lists of characters; machine integers as Int.
-/

/-- Abbreviation turning a string literal into its character list. -/
def sl (s : String) : List Char := s.data

/-- The double-quote character. -/
def quoteC : Char := Char.ofNat 34

/-- The apostrophe character. -/
def aposC : Char := Char.ofNat 39

/-- Decimal digit character for a digit value. -/
def digitChar (d : Nat) : Char := Char.ofNat (48 + d)

/-- Decimal digit value of a character, if it is a digit. -/
def digVal (c : Char) : Option Nat :=
  if 48 ≤ c.toNat ∧ c.toNat ≤ 57 then some (c.toNat - 48) else none

/-- Little-endian decimal digits of a natural number, with fuel. -/
def natDigsF : Nat → Nat → List Nat
  | 0, _ => []
  | f + 1, n => if n = 0 then [] else n % 10 :: natDigsF f (n / 10)

/-- Little-endian decimal digits of a natural number. -/
def natDigs (n : Nat) : List Nat := natDigsF n n

/-- Canonical decimal rendering of a natural number. -/
def natPrint (n : Nat) : List Char :=
  if n = 0 then [digitChar 0] else ((natDigs n).map digitChar).reverse

/-- Canonical decimal rendering of an integer. -/
def intPrint (i : Int) : List Char :=
  if i < 0 then '-' :: natPrint i.natAbs else natPrint i.natAbs

/-- Accumulating base-10 parse of a digit string. -/
def natParseA : List Char → Nat → Option Nat
  | [], acc => some acc
  | c :: r, acc =>
    match digVal c with
    | some d => natParseA r (10 * acc + d)
    | none => none

/-- Base-10 parse of a non-empty digit string. -/
def natParse : List Char → Option Nat
  | [] => none
  | c :: r => natParseA (c :: r) 0

/-- Base-10 parse of an optionally negated digit string. -/
def intParse : List Char → Option Int
  | [] => none
  | c :: r =>
    if c = '-' then (natParse r).map (fun n => -(n : Int))
    else (natParse (c :: r)).map (fun n => (n : Int))

/-- Decimal digit value of a character as an element of `Fin 10`. -/
def finDig (c : Char) : Option (Fin 10) :=
  if h : 48 ≤ c.toNat ∧ c.toNat ≤ 57 then some ⟨c.toNat - 48, by omega⟩ else none

/-- Parse a list of decimal digit characters. -/
def finDigs : List Char → Option (List (Fin 10))
  | [] => some []
  | c :: r => (finDig c).bind fun d => (finDigs r).map fun ds => d :: ds

/-- Split a character list at the first dot. -/
def splitDot : List Char → Option (List Char × List Char)
  | [] => none
  | c :: r =>
    if c = '.' then some ([], r)
    else (splitDot r).map fun p => (c :: p.1, p.2)

/-- Canonical decimal rendering of a double value (integer part and
fractional digit string). -/
def dPrint (ip : Int) (fr : List (Fin 10)) : List Char :=
  intPrint ip ++ '.' :: fr.map fun d => digitChar d.val

/-- Parse the decimal rendering of a double value. -/
def dParse (cs : List Char) : Option (Int × List (Fin 10)) :=
  (splitDot cs).bind fun p =>
    (intParse p.1).bind fun ip =>
      (finDigs p.2).map fun fr => (ip, fr)

/-- Two-digit zero-padded rendering. -/
def pad2 (n : Fin 100) : List Char := [digitChar (n.val / 10), digitChar (n.val % 10)]

/-- Four-digit zero-padded rendering. -/
def pad4 (n : Fin 10000) : List Char :=
  [digitChar (n.val / 1000), digitChar (n.val / 100 % 10),
   digitChar (n.val / 10 % 10), digitChar (n.val % 10)]

/-- Compact ISO-8601-like rendering `YYYYMMDDTHH:MM:SS` of a timestamp. -/
def dtPrint (y : Fin 10000) (mo d h mi s : Fin 100) : List Char :=
  pad4 y ++ pad2 mo ++ pad2 d ++ 'T' :: (pad2 h ++ ':' :: (pad2 mi ++ ':' :: pad2 s))

/-- Read two digit characters as a two-digit number. -/
def rd2 : List Char → Option (Fin 100 × List Char)
  | a :: b :: r =>
    (finDig a).bind fun x => (finDig b).map fun y =>
      ((⟨10 * x.val + y.val, by omega⟩ : Fin 100), r)
  | _ => none

/-- Read four digit characters as a four-digit number. -/
def rd4 : List Char → Option (Fin 10000 × List Char)
  | a :: b :: c :: d :: r =>
    (finDig a).bind fun x => (finDig b).bind fun y =>
      (finDig c).bind fun z => (finDig d).map fun w =>
        ((⟨1000 * x.val + 100 * y.val + 10 * z.val + w.val, by omega⟩ : Fin 10000), r)
  | _ => none

/-- Read one expected character. -/
def chC (c : Char) : List Char → Option (List Char)
  | x :: r => if x = c then some r else none
  | [] => none

/-- Parse the compact ISO-8601-like timestamp rendering. -/
def dtParse (cs : List Char) :
    Option (Fin 10000 × Fin 100 × Fin 100 × Fin 100 × Fin 100 × Fin 100) :=
  (rd4 cs).bind fun p1 =>
  (rd2 p1.2).bind fun p2 =>
  (rd2 p2.2).bind fun p3 =>
  (chC 'T' p3.2).bind fun r4 =>
  (rd2 r4).bind fun p5 =>
  (chC ':' p5.2).bind fun r6 =>
  (rd2 r6).bind fun p7 =>
  (chC ':' p7.2).bind fun r8 =>
  (rd2 r8).bind fun p9 =>
    if p9.2 = [] then some (p1.1, p2.1, p3.1, p5.1, p7.1, p9.1) else none

/-- Base64 alphabet character for a sextet value. -/
def b64c (n : Nat) : Char :=
  if n < 26 then Char.ofNat (65 + n)
  else if n < 52 then Char.ofNat (97 + (n - 26))
  else if n < 62 then Char.ofNat (48 + (n - 52))
  else if n = 62 then '+' else '/'

/-- Sextet value of a base64 alphabet character. -/
def b64v (c : Char) : Option (Fin 64) :=
  if h : 65 ≤ c.toNat ∧ c.toNat ≤ 90 then some ⟨c.toNat - 65, by omega⟩
  else if h : 97 ≤ c.toNat ∧ c.toNat ≤ 122 then some ⟨c.toNat - 97 + 26, by omega⟩
  else if h : 48 ≤ c.toNat ∧ c.toNat ≤ 57 then some ⟨c.toNat - 48 + 52, by omega⟩
  else if c = '+' then some ⟨62, by omega⟩
  else if c = '/' then some ⟨63, by omega⟩
  else none

/-- Base64 encoding of a byte sequence, with `=` padding. -/
def b64enc : List (Fin 256) → List Char
  | [] => []
  | [a] => [b64c (a.val / 4), b64c (a.val % 4 * 16), '=', '=']
  | [a, b] => [b64c (a.val / 4), b64c (a.val % 4 * 16 + b.val / 16), b64c (b.val % 16 * 4), '=']
  | a :: b :: c :: r =>
    b64c (a.val / 4) :: b64c (a.val % 4 * 16 + b.val / 16) ::
      b64c (b.val % 16 * 4 + c.val / 64) :: b64c (c.val % 64) :: b64enc r

/-- Base64 decoding of a padded base64 text. -/
def b64dec : List Char → Option (List (Fin 256))
  | [] => some []
  | c1 :: c2 :: c3 :: c4 :: r =>
    if c3 = '=' ∧ c4 = '=' ∧ r = [] then
      (b64v c1).bind fun s1 => (b64v c2).map fun s2 =>
        [(⟨s1.val * 4 + s2.val / 16, by omega⟩ : Fin 256)]
    else if c4 = '=' ∧ r = [] then
      (b64v c1).bind fun s1 => (b64v c2).bind fun s2 => (b64v c3).map fun s3 =>
        [(⟨s1.val * 4 + s2.val / 16, by omega⟩ : Fin 256),
         (⟨s2.val % 16 * 16 + s3.val / 4, by omega⟩ : Fin 256)]
    else
      (b64v c1).bind fun s1 => (b64v c2).bind fun s2 =>
        (b64v c3).bind fun s3 => (b64v c4).bind fun s4 =>
          (b64dec r).map fun bs =>
            (⟨s1.val * 4 + s2.val / 16, by omega⟩ : Fin 256) ::
              (⟨s2.val % 16 * 16 + s3.val / 4, by omega⟩ : Fin 256) ::
                (⟨s3.val % 4 * 64 + s4.val, by omega⟩ : Fin 256) :: bs
  | _ => none

/-- Escape one character for inclusion in markup text. -/
def escChar (c : Char) : List Char :=
  if c = '&' then sl "&amp;"
  else if c = '<' then sl "&lt;"
  else if c = '>' then sl "&gt;"
  else if c = quoteC then sl "&quot;"
  else if c = aposC then sl "&apos;"
  else [c]

/-- Escape a string for inclusion in markup text. -/
def escape : List Char → List Char
  | [] => []
  | c :: r => escChar c ++ escape r

/-- Undo entity escaping in raw markup text; fails on an unknown or
truncated entity. -/
def unesc : List Char → Option (List Char)
  | [] => some []
  | c :: r =>
    if c = '&' then
      match r with
      | 'a' :: 'm' :: 'p' :: ';' :: r2 => (unesc r2).map fun t => '&' :: t
      | 'a' :: 'p' :: 'o' :: 's' :: ';' :: r2 => (unesc r2).map fun t => aposC :: t
      | 'l' :: 't' :: ';' :: r2 => (unesc r2).map fun t => '<' :: t
      | 'g' :: 't' :: ';' :: r2 => (unesc r2).map fun t => '>' :: t
      | 'q' :: 'u' :: 'o' :: 't' :: ';' :: r2 => (unesc r2).map fun t => quoteC :: t
      | _ => none
    else (unesc r).map fun t => c :: t

/-- Modelled from the spec: the dynamically tagged value union of the
wire protocol (§3).  The codec source files are not present in the
source tree; only their caller `src/xmlrpc/client.go` is.  `double`
is modelled by its canonical decimal rendering (integer part and
fractional digit string) because IEEE-754 semantics are outside the
embedding; `dateTime` carries the six zero-padded fields of the
compact ISO-8601-like wire form; `strct` keeps members in encounter
order. -/
inductive Value where
  | int (n : Int)
  | bool (b : Bool)
  | str (s : List Char)
  | double (ip : Int) (fr : List (Fin 10))
  | dateTime (y : Fin 10000) (mo d h mi s : Fin 100)
  | base64 (bs : List (Fin 256))
  | array (xs : List Value)
  | strct (ms : List (List Char × Value))
  | nil

mutual

/-- Modelled from the spec: encoder body of one value (§4.2, §6);
each variant maps to its dedicated wire tag. -/
def printBody : Value → List Char
  | .int n => sl "<i4>" ++ intPrint n ++ sl "</i4>"
  | .bool b => sl "<boolean>" ++ (if b then ['1'] else ['0']) ++ sl "</boolean>"
  | .str s => sl "<string>" ++ escape s ++ sl "</string>"
  | .double ip fr => sl "<double>" ++ dPrint ip fr ++ sl "</double>"
  | .dateTime y mo d h mi s =>
    sl "<dateTime.iso8601>" ++ dtPrint y mo d h mi s ++ sl "</dateTime.iso8601>"
  | .base64 bs => sl "<base64>" ++ b64enc bs ++ sl "</base64>"
  | .array xs => sl "<array><data>" ++ printItems xs ++ sl "</data></array>"
  | .strct ms => sl "<struct>" ++ printMembers ms ++ sl "</struct>"
  | .nil => sl "<nil/>"

/-- Modelled from the spec: encoder for the elements of an array,
in order, each wrapped in the generic value envelope. -/
def printItems : List Value → List Char
  | [] => []
  | v :: vs => sl "<value>" ++ printBody v ++ sl "</value>" ++ printItems vs

/-- Modelled from the spec: encoder for the members of a struct,
in encounter order. -/
def printMembers : List (List Char × Value) → List Char
  | [] => []
  | (nm, v) :: ms =>
    sl "<member><name>" ++ escape nm ++ sl "</name><value>" ++ printBody v ++
      sl "</value></member>" ++ printMembers ms

end

/-- Modelled from the spec: encoder of one value with its envelope. -/
def printValue (v : Value) : List Char := sl "<value>" ++ printBody v ++ sl "</value>"

mutual

/-- Node-counting size of a value, used as a fuel bound. -/
def vsize : Value → Nat
  | .array xs => 2 + isize xs
  | .strct ms => 2 + msize ms
  | _ => 1

/-- Size of an array element list. -/
def isize : List Value → Nat
  | [] => 0
  | v :: vs => 1 + vsize v + isize vs

/-- Size of a struct member list. -/
def msize : List (List Char × Value) → Nat
  | [] => 0
  | (_, v) :: ms => 1 + vsize v + msize ms

end

/-- Size of a parameter list. -/
def psize : List Value → Nat
  | [] => 0
  | v :: vs => 1 + vsize v + psize vs

/-- Well-formedness of a value tree: struct member names are unique at
every level (a Go map cannot hold duplicate keys, and the decoder
rejects duplicate member names as a protocol error). -/
inductive WFv : Value → Prop where
  | int : ∀ n, WFv (.int n)
  | bool : ∀ b, WFv (.bool b)
  | str : ∀ s, WFv (.str s)
  | double : ∀ ip fr, WFv (.double ip fr)
  | dateTime : ∀ y mo d h mi s, WFv (.dateTime y mo d h mi s)
  | base64 : ∀ bs, WFv (.base64 bs)
  | array : ∀ xs, (∀ v ∈ xs, WFv v) → WFv (.array xs)
  | strct : ∀ ms, (ms.map Prod.fst).Nodup → (∀ p ∈ ms, WFv p.2) → WFv (.strct ms)
  | nil : WFv .nil

/-- Decoder error taxonomy (§7): malformed markup, well-formed markup
violating the expected shape, and truncated input. -/
inductive PErr where
  | parseErr
  | protoErr
  | incomplete
deriving DecidableEq

/-- Result of running a parser: a value with the remaining input, or an
error. -/
inductive Res (α : Type) where
  | ok (a : α) (rest : List Char)
  | bad (e : PErr)

/-- A parser over character lists. -/
def Prs (α : Type) : Type := List Char → Res α

/-- Parser returning a fixed value without consuming input. -/
def pok {α : Type} (a : α) : Prs α := fun s => .ok a s

/-- Parser failing with a fixed error. -/
def pfail {α : Type} (e : PErr) : Prs α := fun _ => .bad e

/-- Sequencing of a parser with a continuation. -/
def pseq {α β : Type} (p : Prs α) (k : α → Prs β) : Prs β := fun s =>
  match p s with
  | .ok a r => k a r
  | .bad e => .bad e

/-- Match an expected literal character sequence; truncated input is
reported as `incomplete`, a mismatch as `parseErr`. -/
def expectA : List Char → List Char → Res Unit
  | [], s => .ok () s
  | _ :: _, [] => .bad .incomplete
  | p :: ps, c :: cs => if c = p then expectA ps cs else .bad .parseErr

/-- Parser form of `expectA`. -/
def expectP (pat : List Char) : Prs Unit := fun s => expectA pat s

/-- Split the input at the first markup opener, consuming it; `none`
when the input ends first. -/
def readRaw : List Char → Option (List Char × List Char)
  | [] => none
  | c :: r =>
    if c = '<' then some ([], r)
    else (readRaw r).map fun p => (c :: p.1, p.2)

/-- Read (and unescape) text up to and including the next markup
opener. -/
def readText : Prs (List Char) := fun s =>
  match readRaw s with
  | none => .bad .incomplete
  | some (raw, r) =>
    match unesc raw with
    | some t => .ok t r
    | none => .bad .parseErr

/-- Read a tag name up to and including the closing angle bracket. -/
def readTagA : List Char → Res (List Char)
  | [] => .bad .incomplete
  | c :: r =>
    if c = '>' then .ok [] r
    else if c = '<' then .bad .parseErr
    else
      match readTagA r with
      | .ok t r2 => .ok (c :: t) r2
      | .bad e => .bad e

/-- Parser form of `readTagA`. -/
def readTag : Prs (List Char) := readTagA

/-- Parse a closing type tag followed by the value envelope closer. -/
def pClose {α : Type} (a : α) (closing : List Char) : Prs α :=
  pseq (expectP closing) fun _ => pseq (expectP (sl "</value>")) fun _ => pok a

/-- The recognized type tags of a value body, used for decoder
dispatch. -/
inductive TagKind where
  | tClose
  | tI4
  | tBoolean
  | tString
  | tDouble
  | tDateTime
  | tBase64
  | tNil
  | tArray
  | tStruct
  | tOther

/-- Classify a tag name read inside a value envelope. -/
def tagKind (tag : List Char) : TagKind :=
  if tag = sl "/value" then .tClose
  else if tag = sl "i4" then .tI4
  else if tag = sl "boolean" then .tBoolean
  else if tag = sl "string" then .tString
  else if tag = sl "double" then .tDouble
  else if tag = sl "dateTime.iso8601" then .tDateTime
  else if tag = sl "base64" then .tBase64
  else if tag = sl "nil/" then .tNil
  else if tag = sl "array" then .tArray
  else if tag = sl "struct" then .tStruct
  else .tOther

/-- Parse boolean element text. -/
def boolParse (d : List Char) : Option Bool :=
  if d = ['1'] then some true else if d = ['0'] then some false else none

/-- Modelled from the spec: decoder dispatch on the type tag found
inside a value envelope (§4.3).  `pIt` and `pMe` stand for the array
item and struct member parsers at the enclosing fuel.  An untyped leaf
(text directly closed by the envelope) is a string; a self-closed
`nil/` tag is `Nil`; an unrecognized tag is a protocol error. -/
def pVB (pIt : Prs (List Value)) (pMe : Prs (List (List Char × Value)))
    (t tag : List Char) : Prs Value :=
  match tagKind tag with
  | .tClose => pok (.str t)
  | .tI4 =>
    if t ≠ [] then pfail .protoErr
    else pseq readText fun d =>
      match intParse d with
      | some n => pClose (.int n) (sl "/i4>")
      | none => pfail .protoErr
  | .tBoolean =>
    if t ≠ [] then pfail .protoErr
    else pseq readText fun d =>
      match boolParse d with
      | some b => pClose (.bool b) (sl "/boolean>")
      | none => pfail .protoErr
  | .tString =>
    if t ≠ [] then pfail .protoErr
    else pseq readText fun d => pClose (.str d) (sl "/string>")
  | .tDouble =>
    if t ≠ [] then pfail .protoErr
    else pseq readText fun d =>
      match dParse d with
      | some pr => pClose (.double pr.1 pr.2) (sl "/double>")
      | none => pfail .protoErr
  | .tDateTime =>
    if t ≠ [] then pfail .protoErr
    else pseq readText fun d =>
      match dtParse d with
      | some q => pClose (.dateTime q.1 q.2.1 q.2.2.1 q.2.2.2.1 q.2.2.2.2.1 q.2.2.2.2.2) (sl "/dateTime.iso8601>")
      | none => pfail .protoErr
  | .tBase64 =>
    if t ≠ [] then pfail .protoErr
    else pseq readText fun d =>
      match b64dec d with
      | some bs => pClose (.base64 bs) (sl "/base64>")
      | none => pfail .protoErr
  | .tNil =>
    if t ≠ [] then pfail .protoErr
    else pseq (expectP (sl "</value>")) fun _ => pok .nil
  | .tArray =>
    if t ≠ [] then pfail .protoErr
    else pseq (expectP (sl "<data>")) fun _ =>
      pseq pIt fun xs => pClose (.array xs) (sl "</array>")
  | .tStruct =>
    if t ≠ [] then pfail .protoErr
    else pseq pMe fun ms =>
      if (ms.map Prod.fst).Nodup then
        pseq (expectP (sl "</value>")) fun _ => pok (.strct ms)
      else pfail .protoErr
  | .tOther => pfail .protoErr

mutual

/-- Modelled from the spec: recursive-descent decoder for the inside of
one value envelope, consuming through the closing envelope tag.  Fuel
bounds the recursion depth; exhausted fuel is reported as truncated
input (the top-level decoder always supplies sufficient fuel). -/
def pValueBody : Nat → Prs Value
  | 0 => pfail .incomplete
  | f + 1 =>
    pseq readText fun t => pseq readTag fun tag => pVB (pItems f) (pMembers f) t tag

/-- Modelled from the spec: decoder loop for array items in document
order, consuming through the closing data tag. -/
def pItems : Nat → Prs (List Value)
  | 0 => pfail .incomplete
  | f + 1 =>
    pseq readText fun t =>
      if t ≠ [] then pfail .protoErr
      else pseq readTag fun tag =>
        if tag = sl "/data" then pok []
        else if tag = sl "value" then
          pseq (pValueBody f) fun v => pseq (pItems f) fun vs => pok (v :: vs)
        else pfail .protoErr

/-- Modelled from the spec: decoder loop for struct members in
encounter order, consuming through the closing struct tag. -/
def pMembers : Nat → Prs (List (List Char × Value))
  | 0 => pfail .incomplete
  | f + 1 =>
    pseq readText fun t =>
      if t ≠ [] then pfail .protoErr
      else pseq readTag fun tag =>
        if tag = sl "/struct" then pok []
        else if tag = sl "member" then
          pseq (expectP (sl "<name>")) fun _ =>
            pseq readText fun nm =>
              pseq (expectP (sl "/name>")) fun _ =>
                pseq (expectP (sl "<value>")) fun _ =>
                  pseq (pValueBody f) fun v =>
                    pseq (expectP (sl "</member>")) fun _ =>
                      pseq (pMembers f) fun ms => pok ((nm, v) :: ms)
        else pfail .protoErr

/-- Modelled from the spec: decoder loop for the parameter list,
consuming through the closing params tag. -/
def pParams : Nat → Prs (List Value)
  | 0 => pfail .incomplete
  | f + 1 =>
    pseq readText fun t =>
      if t ≠ [] then pfail .protoErr
      else pseq readTag fun tag =>
        if tag = sl "/params" then pok []
        else if tag = sl "param" then
          pseq (expectP (sl "<value>")) fun _ =>
            pseq (pValueBody f) fun v =>
              pseq (expectP (sl "</param>")) fun _ =>
                pseq (pParams f) fun vs => pok (v :: vs)
        else pfail .protoErr

end

/-- Raw outcome of parsing a whole document: a method call with its
parameters, a response with its parameters, or a raw fault value. -/
inductive DocOut where
  | call (nm : List Char) (args : List Value)
  | resp (args : List Value)
  | flt (v : Value)

/-- Document prolog expected by the decoder (§6). -/
def prologL : List Char := sl "<?xml version=\"1.0\"?>"

/-- Modelled from the spec: whole-document parser for request and
response envelopes (§4.3, §6). -/
def pDocF (f : Nat) : Prs DocOut :=
  pseq (expectP prologL) fun _ =>
    pseq readText fun t =>
      if t ≠ [] then pfail .protoErr
      else pseq readTag fun tag =>
        if tag = sl "methodCall" then
          pseq (expectP (sl "<methodName>")) fun _ =>
            pseq readText fun nm =>
              pseq (expectP (sl "/methodName>")) fun _ =>
                pseq readText fun t2 =>
                  if t2 ≠ [] then pfail .protoErr
                  else pseq readTag fun tg2 =>
                    if tg2 = sl "params" then
                      pseq (pParams f) fun vs =>
                        pseq (expectP (sl "</methodCall>")) fun _ => pok (.call nm vs)
                    else pfail .protoErr
        else if tag = sl "methodResponse" then
          pseq readText fun t2 =>
            if t2 ≠ [] then pfail .protoErr
            else pseq readTag fun tg2 =>
              if tg2 = sl "params" then
                pseq (pParams f) fun vs =>
                  pseq (expectP (sl "</methodResponse>")) fun _ => pok (.resp vs)
              else if tg2 = sl "fault" then
                pseq (expectP (sl "<value>")) fun _ =>
                  pseq (pValueBody f) fun v =>
                    pseq (expectP (sl "</fault>")) fun _ =>
                      pseq (expectP (sl "</methodResponse>")) fun _ => pok (.flt v)
              else pfail .protoErr
        else pfail .protoErr

/-- Tag carried by a value, used in extraction errors. -/
inductive TypeTag where
  | int
  | bool
  | str
  | double
  | dateTime
  | base64
  | array
  | strct
  | nil
deriving DecidableEq

/-- Tag of a value. -/
def tagOf : Value → TypeTag
  | .int _ => .int
  | .bool _ => .bool
  | .str _ => .str
  | .double _ _ => .double
  | .dateTime _ _ _ _ _ _ => .dateTime
  | .base64 _ => .base64
  | .array _ => .array
  | .strct _ => .strct
  | .nil => .nil

/-- Extraction failure carrying the expected and actual tags (§7). -/
inductive ExtractErr where
  | typeMismatch (expected actual : TypeTag)
deriving DecidableEq

/-- Modelled from the spec: lenient integer extraction (§4.1).  Strict
on an `Int`; on a `String` it attempts base-10 parsing before failing;
every other tag is a type mismatch. -/
def asInt : Value → Except ExtractErr Int
  | .int n => .ok n
  | .str s =>
    match intParse s with
    | some n => .ok n
    | none => .error (.typeMismatch .int .str)
  | v => .error (.typeMismatch .int (tagOf v))

/-- Modelled from the spec: strict string extraction (§4.1). -/
def asString : Value → Except ExtractErr (List Char)
  | .str s => .ok s
  | v => .error (.typeMismatch .str (tagOf v))

/-- Modelled from the spec: strict boolean extraction (§4.1). -/
def asBool : Value → Except ExtractErr Bool
  | .bool b => .ok b
  | v => .error (.typeMismatch .bool (tagOf v))

/-- Modelled from the spec: strict double extraction (§4.1). -/
def asDouble : Value → Except ExtractErr (Int × List (Fin 10))
  | .double ip fr => .ok (ip, fr)
  | v => .error (.typeMismatch .double (tagOf v))

/-- Modelled from the spec: strict array extraction (§4.1). -/
def asArray : Value → Except ExtractErr (List Value)
  | .array xs => .ok xs
  | v => .error (.typeMismatch .array (tagOf v))

/-- Modelled from the spec: strict struct extraction (§4.1). -/
def asStruct : Value → Except ExtractErr (List (List Char × Value))
  | .strct ms => .ok ms
  | v => .error (.typeMismatch .strct (tagOf v))

/-- Look up a struct member by name. -/
def lookupM : List (List Char × Value) → List Char → Option Value
  | [], _ => none
  | (nm, v) :: ms, k => if nm = k then some v else lookupM ms k

/-- Final outcome of decoding one document. -/
inductive DecodeResult where
  | success (v : Value)
  | fault (code : Int) (msg : List Char)
  | failure (e : PErr)

/-- Modelled from the spec: interpretation of a decoded fault value
(§4.3): descend into the fault struct, extract `faultCode` (with the
lenient integer rule) and `faultString`. -/
def interpretFault (v : Value) : DecodeResult :=
  match v with
  | .strct ms =>
    match lookupM ms (sl "faultCode"), lookupM ms (sl "faultString") with
    | some cv, some mv =>
      match asInt cv, asString mv with
      | .ok c, .ok m => .fault c m
      | _, _ => .failure .protoErr
    | _, _ => .failure .protoErr
  | _ => .failure .protoErr

/-- Modelled from the spec: whole-document decode (§4.3).  A document
whose parameter list does not hold exactly one value, or with trailing
input, is a protocol error; a fault document yields the remote fault.
Fuel is the input length, which always suffices because every level of
value nesting consumes input. -/
def decode (s : List Char) : DecodeResult :=
  match pDocF s.length s with
  | .ok (.call _ [v]) [] => .success v
  | .ok (.resp [v]) [] => .success v
  | .ok (.flt v) [] => interpretFault v
  | .ok _ [] => .failure .protoErr
  | .ok _ (_ :: _) => .failure .protoErr
  | .bad e => .failure e

/-- Modelled from the spec: the ordered parameter list of a call. -/
def printParams : List Value → List Char
  | [] => []
  | v :: vs => sl "<param>" ++ printValue v ++ sl "</param>" ++ printParams vs

/-- Modelled from the spec: request encoder (§4.2, §6): prolog,
`methodCall` envelope with the call name verbatim, and the ordered
parameter list. -/
def printCall (nm : List Char) (args : List Value) : List Char :=
  prologL ++ sl "<methodCall><methodName>" ++ nm ++ sl "</methodName><params>" ++
    printParams args ++ sl "</params></methodCall>"

/-- Modelled from the spec: success-response encoder (§6), used to
state decoder properties about response documents. -/
def printResponse (v : Value) : List Char :=
  prologL ++ sl "<methodResponse><params><param>" ++ printValue v ++
    sl "</param></params></methodResponse>"

mutual

/-- Modelled from the spec: relational form of the encoder body (§4.2);
the relation mirrors the encoding algorithm, with stable member and
array ordering, and is used to state that encoding is deterministic. -/
inductive ERv : Value → List Char → Prop where
  | int : ∀ n, ERv (.int n) (sl "<i4>" ++ intPrint n ++ sl "</i4>")
  | bool : ∀ b, ERv (.bool b) (sl "<boolean>" ++ (if b then ['1'] else ['0']) ++ sl "</boolean>")
  | str : ∀ s, ERv (.str s) (sl "<string>" ++ escape s ++ sl "</string>")
  | double : ∀ ip fr, ERv (.double ip fr) (sl "<double>" ++ dPrint ip fr ++ sl "</double>")
  | dateTime : ∀ y mo d h mi s,
      ERv (.dateTime y mo d h mi s)
        (sl "<dateTime.iso8601>" ++ dtPrint y mo d h mi s ++ sl "</dateTime.iso8601>")
  | base64 : ∀ bs, ERv (.base64 bs) (sl "<base64>" ++ b64enc bs ++ sl "</base64>")
  | array : ∀ xs out, ERl xs out →
      ERv (.array xs) (sl "<array><data>" ++ out ++ sl "</data></array>")
  | strct : ∀ ms out, ERm ms out →
      ERv (.strct ms) (sl "<struct>" ++ out ++ sl "</struct>")
  | nil : ERv .nil (sl "<nil/>")

/-- Relational encoder for array element lists, in order. -/
inductive ERl : List Value → List Char → Prop where
  | nil : ERl [] []
  | cons : ∀ v out vs outs, ERv v out → ERl vs outs →
      ERl (v :: vs) (sl "<value>" ++ out ++ sl "</value>" ++ outs)

/-- Relational encoder for struct member lists, in stable order. -/
inductive ERm : List (List Char × Value) → List Char → Prop where
  | nil : ERm [] []
  | cons : ∀ nm v out ms outs, ERv v out → ERm ms outs →
      ERm ((nm, v) :: ms) (sl "<member><name>" ++ escape nm ++ sl "</name><value>" ++ out ++
        sl "</value></member>" ++ outs)

end

/-- Relational encoder for parameter lists, in order. -/
inductive ERp : List Value → List Char → Prop where
  | nil : ERp [] []
  | cons : ∀ v out vs outs, ERv v out → ERp vs outs →
      ERp (v :: vs) (sl "<param><value>" ++ out ++ sl "</value></param>" ++ outs)

/-- Relational encoder for whole request documents. -/
inductive ERcall : List Char → List Value → List Char → Prop where
  | mk : ∀ nm args out, ERp args out →
      ERcall nm args (prologL ++ sl "<methodCall><methodName>" ++ nm ++
        sl "</methodName><params>" ++ out ++ sl "</params></methodCall>")

/-- Errors surfaced by the Go side of the embedding. -/
inductive GoErr where
  | invalidMethod (m : List Char)
  | unmarshalErr (e : PErr)
  | faultErr (inner : Option PErr) (code : Int) (msg : List Char)
  | wrapped (e : GoErr)
deriving DecidableEq

/-- An HTTP request as visible to this embedding: its method and URL. -/
structure HttpReq where
  method : List Char
  url : List Char
deriving DecidableEq

/-- Validity of one HTTP method character (RFC 7230 token characters),
as checked by the Go standard library. -/
def validMethodChar (c : Char) : Bool :=
  (65 ≤ c.toNat && c.toNat ≤ 90) || (97 ≤ c.toNat && c.toNat ≤ 122) ||
    (48 ≤ c.toNat && c.toNat ≤ 57) ||
    c ∈ ['!', '#', '$', '%', '&', aposC, '*', '+', '-', '.', '^', '_', Char.ofNat 96, '|', '~']

/-- Model of Go `http.NewRequestWithContext(ctx, method, url, body)`
(an external collaborator): an empty method defaults to GET, and a
method containing a non-token character is rejected with an invalid
method error. -/
def newRequestWithContext (method url : List Char) : Except GoErr HttpReq :=
  let m := if method = [] then sl "GET" else method
  if m.all validMethodChar then .ok ⟨m, url⟩ else .error (.invalidMethod m)

/-- Embedding of the request construction in `Client.Call`
(src/xmlrpc/client.go line 78): the code passes the configured address
as the method argument and the string `text/xml` as the URL argument of
`http.NewRequestWithContext`. -/
def callBuildRequest (addr : List Char) : Except GoErr HttpReq :=
  newRequestWithContext addr (sl "text/xml")

/-- The three results the Go `Unmarshal` hands back to `Client.Call`
(value, fault, error), derived from the decoder. -/
def unmarshalParts (s : List Char) : Option Value × Option (Int × List Char) × Option PErr :=
  match decode s with
  | .success v => (some v, none, none)
  | .fault c m => (none, some (c, m), none)
  | .failure e => (none, none, some e)

/-- Embedding of the response handling in `Client.Call`
(src/xmlrpc/client.go lines 91-95): when the fault is non-nil, the
returned error is replaced by an error wrapping the fault; the value is
returned alongside. -/
def callFinish (s : List Char) : Option Value × Option GoErr :=
  let parts := unmarshalParts s
  (parts.1,
    match parts.2.1 with
    | some f => some (.faultErr parts.2.2 f.1 f.2)
    | none => (parts.2.2).map .unmarshalErr)

/-- Model of a decoded Go `interface{}` value as handed to the domain
facade by the XML-RPC layer. -/
inductive GoVal where
  | gI (n : Int)
  | gS (s : List Char)
  | gB (b : Bool)
  | gA (xs : List GoVal)

/-- Outcome of facade code that may panic (failed type assertion or
out-of-range index) in Go. -/
inductive AccOut where
  | ok (s : List Char)
  | errNotStr (v : GoVal)
  | panicked

/-- Outcome of an integer-returning accessor. -/
inductive AccIOut where
  | ok (n : Int)
  | errNotInt (v : GoVal)
  | panicked

/-- Embedding of the shared body of `Client.IP` and `Client.Name`
(src/unnamed/part_000 lines 283-310) after a successful call: a
comma-ok assertion unwraps a slice result and indexes its first
element (which panics when the slice is empty), then a comma-ok string
assertion either returns the string or the `result isn't string`
error. -/
def stringScalarResult : GoVal → AccOut
  | .gA [] => .panicked
  | .gA (x :: _) =>
    match x with
    | .gS s => .ok s
    | v => .errNotStr v
  | .gS s => .ok s
  | v => .errNotStr v

/-- Embedding of the shared body of `Client.DownTotal`,
`Client.DownRate`, `Client.UpTotal` and `Client.UpRate`
(src/unnamed/part_000 lines 313-370) after a successful call, with the
`result isn't int` error. -/
def intScalarResult : GoVal → AccIOut
  | .gA [] => .panicked
  | .gA (x :: _) =>
    match x with
    | .gI n => .ok n
    | v => .errNotInt v
  | .gI n => .ok n
  | v => .errNotInt v

/-- Go `time.Time` as visible to this embedding: the zero value or a
Unix timestamp. -/
inductive TimeV where
  | zero
  | unix (n : Int)
deriving DecidableEq

/-- Embedding of the `Torrent` struct (src/unnamed/part_000 lines
61-72).  `Ratio` (a Go float64 produced as `float64(x)/float64(1000)`)
is modelled as a rational number. -/
structure Torrent where
  Hash : List Char
  Name : List Char
  Path : List Char
  Size : Int
  Label : List Char
  Completed : Bool
  Ratio : ℚ
  Created : TimeV
  Started : TimeV
  Finished : TimeV
deriving DecidableEq

/-- The field list of the `d.multicall2` request issued by
`Client.GetTorrents` (src/unnamed/part_000 line 374), in order:
`d.name=`, `d.size_bytes=`, `d.hash=`, `d.custom1=`, `d.directory=`,
`d.is_active=`, `d.complete=`, `d.ratio=`, `d.creation_date=`,
`d.timestamp.finished=`, `d.timestamp.started=`. -/
def getTorrentsFields : List (List Char) :=
  [sl "d.name=", sl "d.size_bytes=", sl "d.hash=", sl "d.custom1=", sl "d.directory=",
   sl "d.is_active=", sl "d.complete=", sl "d.ratio=", sl "d.creation_date=",
   sl "d.timestamp.finished=", sl "d.timestamp.started="]

/-- The full argument list of the `d.multicall2` call: empty target,
the view, then the field queries. -/
def getTorrentsArgs (view : List Char) : List (List Char) :=
  [] :: view :: getTorrentsFields

/-- Outcome of facade code building a torrent, which may panic on a
failed type assertion or out-of-range index. -/
inductive TOut (α : Type) where
  | ok (a : α)
  | panicked

/-- Go index expression `xs[i]` on a slice: panics when out of range. -/
def goIdx (xs : List GoVal) (i : Nat) : TOut GoVal :=
  match xs[i]? with
  | some v => .ok v
  | none => .panicked

/-- Go type assertion `v.(string)`: panics when the value is not a
string. -/
def goStr : TOut GoVal → TOut (List Char)
  | .ok (.gS s) => .ok s
  | _ => .panicked

/-- Go type assertion `v.(int)`: panics when the value is not an
integer. -/
def goInt : TOut GoVal → TOut Int
  | .ok (.gI n) => .ok n
  | _ => .panicked

/-- Embedding of the loop body of `Client.GetTorrents`
(src/unnamed/part_000 lines 382-394): one per-item row is converted to
a `Torrent`, reading each field at its literal index. -/
def rowToTorrent (row : List GoVal) : TOut Torrent :=
  match goStr (goIdx row 2), goStr (goIdx row 0), goStr (goIdx row 4),
      goInt (goIdx row 1), goStr (goIdx row 3), goInt (goIdx row 6),
      goInt (goIdx row 7), goInt (goIdx row 8), goInt (goIdx row 9),
      goInt (goIdx row 10) with
  | .ok hash, .ok nm, .ok path, .ok size, .ok lbl, .ok compl, .ok rat, .ok cre, .ok fin, .ok sta =>
    .ok { Hash := hash, Name := nm, Path := path, Size := size, Label := lbl,
          Completed := decide (0 < compl), Ratio := (rat : ℚ) / 1000,
          Created := .unix cre, Finished := .unix fin, Started := .unix sta }
  | _, _, _, _, _, _, _, _, _, _ => .panicked

/-- Outcome of `Client.GetTorrent`: the torrent (possibly partial, when
a call failed and an error is carried alongside), or a panic. -/
inductive GTOut where
  | done (t : Torrent) (e : Option GoErr)
  | panicked
deriving DecidableEq

/-- Result of `results.([]interface{})[0].(string)` in Go: panics
unless the value is a non-empty slice whose first element is a
string. -/
def arr0Str (v : GoVal) : TOut (List Char) :=
  match v with
  | .gA (x :: _) =>
    match x with
    | .gS s => .ok s
    | _ => .panicked
  | _ => .panicked

/-- Result of `results.([]interface{})[0].(int)` in Go. -/
def arr0Int (v : GoVal) : TOut Int :=
  match v with
  | .gA (x :: _) =>
    match x with
    | .gI n => .ok n
    | _ => .panicked
  | _ => .panicked

/-- Embedding of `Client.GetTorrent` (src/unnamed/part_000 lines
401-460) over an oracle giving each remote call's outcome by method
name.  The embedding mirrors the source statement by statement; in
particular the result of the final `d.timestamp.started` call is
assigned to the `Created` field (line 457), and `Started` is never
assigned. -/
def getTorrent (oracle : List Char → Except GoErr GoVal) (hash : List Char) : GTOut :=
  let t0 : Torrent :=
    { Hash := hash, Name := [], Path := [], Size := 0, Label := [],
      Completed := false, Ratio := 0, Created := .zero, Started := .zero, Finished := .zero }
  match oracle (sl "d.name") with
  | .error e => .done t0 (some (.wrapped e))
  | .ok r1 =>
    match arr0Str r1 with
    | .panicked => .panicked
    | .ok nm =>
      let t1 := { t0 with Name := nm }
      match oracle (sl "d.size_bytes") with
      | .error e => .done t1 (some (.wrapped e))
      | .ok r2 =>
        match arr0Int r2 with
        | .panicked => .panicked
        | .ok size =>
          let t2 := { t1 with Size := size }
          match oracle (sl "d.custom1") with
          | .error e => .done t2 (some (.wrapped e))
          | .ok r3 =>
            match arr0Str r3 with
            | .panicked => .panicked
            | .ok lbl =>
              let t3 := { t2 with Label := lbl }
              match oracle (sl "d.directory") with
              | .error e => .done t3 (some (.wrapped e))
              | .ok r4 =>
                match arr0Str r4 with
                | .panicked => .panicked
                | .ok path =>
                  let t4 := { t3 with Path := path }
                  match oracle (sl "d.complete") with
                  | .error e => .done t4 (some (.wrapped e))
                  | .ok r5 =>
                    match arr0Int r5 with
                    | .panicked => .panicked
                    | .ok compl =>
                      let t5 := { t4 with Completed := decide (0 < compl) }
                      match oracle (sl "d.ratio") with
                      | .error e => .done t5 (some (.wrapped e))
                      | .ok r6 =>
                        match arr0Int r6 with
                        | .panicked => .panicked
                        | .ok rat =>
                          let t6 := { t5 with Ratio := (rat : ℚ) / 1000 }
                          match oracle (sl "d.creation_date") with
                          | .error e => .done t6 (some (.wrapped e))
                          | .ok r7 =>
                            match arr0Int r7 with
                            | .panicked => .panicked
                            | .ok cre =>
                              let t7 := { t6 with Created := .unix cre }
                              match oracle (sl "d.timestamp.finished") with
                              | .error e => .done t7 (some (.wrapped e))
                              | .ok r8 =>
                                match arr0Int r8 with
                                | .panicked => .panicked
                                | .ok fin =>
                                  let t8 := { t7 with Finished := .unix fin }
                                  match oracle (sl "d.timestamp.started") with
                                  | .error e => .done t8 (some (.wrapped e))
                                  | .ok r9 =>
                                    match arr0Int r9 with
                                    | .panicked => .panicked
                                    | .ok sta => .done { t8 with Created := .unix sta } none

/-- Oracle for `getTorrent` in which every per-field call succeeds with
a value of the shape the source expects. -/
def gtOracle (nm lbl dir : List Char) (size compl rat cre fin sta : Int) :
    List Char → Except GoErr GoVal := fun m =>
  if m = sl "d.name" then .ok (.gA [.gS nm])
  else if m = sl "d.size_bytes" then .ok (.gA [.gI size])
  else if m = sl "d.custom1" then .ok (.gA [.gS lbl])
  else if m = sl "d.directory" then .ok (.gA [.gS dir])
  else if m = sl "d.complete" then .ok (.gA [.gI compl])
  else if m = sl "d.ratio" then .ok (.gA [.gI rat])
  else if m = sl "d.creation_date" then .ok (.gA [.gI cre])
  else if m = sl "d.timestamp.finished" then .ok (.gA [.gI fin])
  else if m = sl "d.timestamp.started" then .ok (.gA [.gI sta])
  else .ok (.gA [])

/-- Observable trace of one `Client.SetLabel` run (src/unnamed/part_000
lines 492-499): the callee's local torrent copy after the label
assignment, the arguments sent to `d.custom1.set`, the caller's torrent
after the call, and the returned error.  The parameter is passed by
value in Go, so the callee mutates a copy and the caller's torrent is
the unchanged original. -/
structure SetLabelRun where
  callee : Torrent
  args : List GoVal
  callerAfter : Torrent
  result : Option GoErr

/-- Embedding of `Client.SetLabel` over the remote call outcome. -/
def setLabelRun (callRes : Except GoErr GoVal) (t : Torrent) (newLabel : List Char) :
    SetLabelRun :=
  let callee := { t with Label := newLabel }
  { callee := callee,
    args := [.gS callee.Hash, .gS newLabel],
    callerAfter := t,
    result := match callRes with | .ok _ => none | .error e => some (.wrapped e) }

/-- Value of a little-endian digit list. -/
def ofLE : List Nat → Nat
  | [] => 0
  | d :: ds => d + 10 * ofLE ds

/-- Consumption property of a parser: a successful run splits the input
into a consumed part and the rest, and the run is determined by the
consumed part. -/
def PA {α : Type} (p : Prs α) : Prop :=
  ∀ s a r, p s = .ok a r → ∃ c, s = c ++ r ∧ ∀ t, p (c ++ t) = .ok a t

/-- Stability between two parser instances (the same parser at two fuel
levels): on any input accepted by the first, the second either agrees
or reports truncated input. -/
def PStab {α : Type} (p q : Prs α) : Prop :=
  ∀ s a r, p s = .ok a r → q s = .ok a r ∨ q s = .bad .incomplete

/-- Prefix strictness between two parser instances: any strict prefix
of an input consumed by the first is reported by the second as
truncated input. -/
def PBb {α : Type} (p q : Prs α) : Prop :=
  ∀ c r a, p (c ++ r) = .ok a r → ∀ u w, c = u ++ w → w ≠ [] → q u = .bad .incomplete

/-- Modelled from the spec: fault-response encoder (§6), used to state
decoder properties about fault documents. -/
def printFault (v : Value) : List Char :=
  prologL ++ sl "<methodResponse><fault><value>" ++ printBody v ++
    sl "</value></fault></methodResponse>"

/-- A concrete fault response document with code 500 and message
`Method not found`. -/
def fault500doc : List Char :=
  prologL ++ sl "<methodResponse><fault><value><struct><member><name>faultCode</name><value><i4>500</i4></value></member><member><name>faultString</name><value><string>Method not found</string></value></member></struct></value></fault></methodResponse>"

theorem natDigsF_ofLE : ∀ f n, n ≤ f → ofLE (natDigsF f n) = n := by
  intro f
  induction f with
  | zero => intro n h; interval_cases n; simp [natDigsF, ofLE]
  | succ f ih =>
    intro n h
    by_cases h0 : n = 0
    · simp [natDigsF, h0, ofLE]
    · have hd : n / 10 ≤ f := by omega
      simp only [natDigsF, h0, if_false, ofLE, ih _ hd]
      omega

theorem natDigsF_lt : ∀ f n d, d ∈ natDigsF f n → d < 10 := by
  intro f
  induction f with
  | zero => intro n d h; simp [natDigsF] at h
  | succ f ih =>
    intro n d h
    by_cases h0 : n = 0
    · simp [natDigsF, h0] at h
    · simp only [natDigsF, h0, if_false, List.mem_cons] at h
      rcases h with h | h
      · omega
      · exact ih _ _ h

theorem natDigsF_ne_nil (n : Nat) (h : n ≠ 0) : natDigsF n n ≠ [] := by
  cases n with
  | zero => exact absurd rfl h
  | succ m => simp [natDigsF]

theorem digitChar_toNat (d : Nat) (h : d < 10) : (digitChar d).toNat = 48 + d := by
  interval_cases d <;> decide

theorem digVal_digitChar (d : Nat) (h : d < 10) : digVal (digitChar d) = some d := by
  interval_cases d <;> decide

theorem natParseA_append : ∀ xs ys acc, natParseA (xs ++ ys) acc =
    match natParseA xs acc with
    | some a => natParseA ys a
    | none => none := by
  intro xs
  induction xs with
  | nil => intro ys acc; rfl
  | cons c r ih =>
    intro ys acc
    simp only [List.cons_append, natParseA]
    cases digVal c with
    | none => rfl
    | some d => exact ih ys (10 * acc + d)

theorem natParseA_print : ∀ ds acc, (∀ d ∈ ds, d < 10) →
    natParseA ((ds.map digitChar).reverse) acc = some (acc * 10 ^ ds.length + ofLE ds) := by
  intro ds
  induction ds with
  | nil => intro acc _; simp [natParseA, ofLE]
  | cons d ds ih =>
    intro acc h
    have hd : d < 10 := h d (List.mem_cons_self d ds)
    have hds : ∀ x ∈ ds, x < 10 := fun x hx => h x (List.mem_cons_of_mem d hx)
    simp only [List.map_cons, List.reverse_cons]
    rw [natParseA_append, ih acc hds]
    simp only [natParseA, digVal_digitChar d hd, ofLE, List.length_cons]
    congr 1
    ring

theorem natParse_eq (xs : List Char) (h : xs ≠ []) : natParse xs = natParseA xs 0 := by
  cases xs with
  | nil => exact absurd rfl h
  | cons c r => rfl

theorem natParse_natPrint (n : Nat) : natParse (natPrint n) = some n := by
  by_cases h0 : n = 0
  · subst h0; decide
  · have hne : natDigsF n n ≠ [] := natDigsF_ne_nil n h0
    have hpr : natPrint n = ((natDigsF n n).map digitChar).reverse := by
      simp [natPrint, h0, natDigs]
    rw [hpr, natParse_eq _ (by simpa using hne),
      natParseA_print _ 0 (fun d hd => natDigsF_lt n n d hd)]
    simp [natDigsF_ofLE n n le_rfl]

theorem natPrint_chars (n : Nat) : ∀ c ∈ natPrint n, 48 ≤ c.toNat ∧ c.toNat ≤ 57 := by
  intro c hc
  by_cases h0 : n = 0
  · subst h0; simp [natPrint] at hc; subst hc; decide
  · simp only [natPrint, h0, if_false, List.mem_reverse, List.mem_map] at hc
    obtain ⟨d, hd, rfl⟩ := hc
    have := natDigsF_lt n n d hd
    rw [digitChar_toNat d this]
    omega

theorem natPrint_ne_nil (n : Nat) : natPrint n ≠ [] := by
  by_cases h0 : n = 0
  · subst h0; decide
  · simp only [natPrint, h0, if_false]
    intro h
    apply natDigsF_ne_nil n h0
    have := congrArg List.length h
    simp [natDigs] at this
    exact this

theorem intParse_intPrint (i : Int) : intParse (intPrint i) = some i := by
  by_cases hneg : i < 0
  · simp only [intPrint, hneg, if_true]
    rw [show intParse ('-' :: natPrint i.natAbs) =
        (natParse (natPrint i.natAbs)).map (fun n => -(n : Int)) from by simp [intParse]]
    rw [natParse_natPrint]
    show some (-((i.natAbs : Nat) : Int)) = some i
    congr 1
    omega
  · simp only [intPrint, hneg, if_false]
    rcases hl : natPrint i.natAbs with _ | ⟨c, r⟩
    · exact absurd hl (natPrint_ne_nil _)
    · have hc : c ≠ '-' := by
        have := natPrint_chars i.natAbs c (hl ▸ List.mem_cons_self c r)
        intro h
        rw [h] at this
        revert this
        decide
      have h1 : intParse (c :: r) = (natParse (c :: r)).map (fun n => (n : Int)) := by
        simp [intParse, hc]
      rw [h1, ← hl, natParse_natPrint]
      show some (((i.natAbs : Nat) : Int)) = some i
      congr 1
      omega

theorem intPrint_chars (i : Int) : ∀ c ∈ intPrint i,
    c.toNat = 45 ∨ (48 ≤ c.toNat ∧ c.toNat ≤ 57) := by
  intro c hc
  by_cases hneg : i < 0
  · simp only [intPrint, hneg, if_true, List.mem_cons] at hc
    rcases hc with rfl | hc
    · left; decide
    · right; exact natPrint_chars _ c hc
  · simp only [intPrint, hneg, if_false] at hc
    right; exact natPrint_chars _ c hc

theorem lt_not_mem_escChar (c : Char) : '<' ∉ escChar c := by
  unfold escChar
  split_ifs with h1 h2 h3 h4 h5
  · decide
  · decide
  · decide
  · decide
  · decide
  · intro hm
    simp only [List.mem_singleton] at hm
    exact h2 hm.symm

theorem lt_not_mem_escape (t : List Char) : '<' ∉ escape t := by
  induction t with
  | nil => simp [escape]
  | cons c r ih =>
    simp only [escape, List.mem_append]
    rintro (h | h)
    · exact lt_not_mem_escChar c h
    · exact ih h

theorem unesc_escape (t : List Char) : unesc (escape t) = some t := by
  induction t with
  | nil => rfl
  | cons c r ih =>
    show unesc (escChar c ++ escape r) = some (c :: r)
    by_cases h1 : c = '&'
    · subst h1
      rw [show escChar '&' = sl "&amp;" from rfl]
      simp [unesc, ih]
    · by_cases h2 : c = '<'
      · subst h2
        rw [show escChar '<' = sl "&lt;" from rfl]
        simp [unesc, ih]
      · by_cases h3 : c = '>'
        · subst h3
          rw [show escChar '>' = sl "&gt;" from rfl]
          simp [unesc, ih]
        · by_cases h4 : c = quoteC
          · subst h4
            rw [show escChar quoteC = sl "&quot;" from rfl]
            simp [unesc, ih]
          · by_cases h5 : c = aposC
            · subst h5
              rw [show escChar aposC = sl "&apos;" from rfl]
              simp [unesc, ih]
            · rw [show escChar c = [c] from by simp [escChar, h1, h2, h3, h4, h5]]
              rw [List.singleton_append, unesc.eq_def]
              simp [h1, ih]

theorem unesc_plain (t : List Char) (h : ∀ c ∈ t, c ≠ '&') : unesc t = some t := by
  induction t with
  | nil => rfl
  | cons c r ih =>
    have hc : c ≠ '&' := h c (List.mem_cons_self c r)
    rw [unesc.eq_def]
    simp [hc, ih fun x hx => h x (List.mem_cons_of_mem c hx)]

theorem readRaw_append (a : List Char) (s : List Char) (h : '<' ∉ a) :
    readRaw (a ++ '<' :: s) = some (a, s) := by
  induction a with
  | nil => simp [readRaw]
  | cons c r ih =>
    have hc : c ≠ '<' := fun hh => h (hh ▸ List.mem_cons_self c r)
    simp [readRaw, hc, ih fun hh => h (List.mem_cons_of_mem c hh)]

theorem readRaw_none (a : List Char) (h : '<' ∉ a) : readRaw a = none := by
  induction a with
  | nil => rfl
  | cons c r ih =>
    have hc : c ≠ '<' := fun hh => h (hh ▸ List.mem_cons_self c r)
    simp [readRaw, hc, ih fun hh => h (List.mem_cons_of_mem c hh)]

theorem readRaw_some : ∀ s raw r, readRaw s = some (raw, r) →
    s = raw ++ '<' :: r ∧ '<' ∉ raw := by
  intro s
  induction s with
  | nil => intro raw r h; simp [readRaw] at h
  | cons c cs ih =>
    intro raw r h
    by_cases hc : c = '<'
    · subst hc
      simp [readRaw] at h
      obtain ⟨h1, h2⟩ := h
      subst h1; subst h2
      simp
    · simp only [readRaw, if_neg hc] at h
      cases hr : readRaw cs with
      | none => rw [hr] at h; simp at h
      | some p =>
        rw [hr] at h
        simp at h
        obtain ⟨h1, h2⟩ := h
        obtain ⟨hs, hm⟩ := ih p.1 p.2 (by rw [hr])
        constructor
        · rw [← h1, ← h2]
          simp [hs]
        · rw [← h1]
          simp only [List.mem_cons]
          rintro (hh | hh)
          · exact hc hh.symm
          · exact hm hh

theorem readText_esc (t s : List Char) : readText (escape t ++ '<' :: s) = .ok t s := by
  simp [readText, readRaw_append _ _ (lt_not_mem_escape t), unesc_escape]

theorem readText_plain (t s : List Char) (h1 : '<' ∉ t) (h2 : ∀ c ∈ t, c ≠ '&') :
    readText (t ++ '<' :: s) = .ok t s := by
  simp [readText, readRaw_append _ _ h1, unesc_plain _ h2]

theorem readText_lt (s : List Char) : readText ('<' :: s) = .ok [] s := rfl

theorem expectA_pre : ∀ pat s, expectA pat (pat ++ s) = .ok () s := by
  intro pat
  induction pat with
  | nil => intro s; rfl
  | cons p ps ih => intro s; simp [expectA, ih]

theorem readTag_pre : ∀ tag s, (∀ c ∈ tag, c ≠ '>' ∧ c ≠ '<') →
    readTagA (tag ++ '>' :: s) = .ok tag s := by
  intro tag
  induction tag with
  | nil => intro s _; simp [readTagA]
  | cons c r ih =>
    intro s h
    have hc := h c (List.mem_cons_self c r)
    simp [readTagA, hc.1, hc.2, ih s fun x hx => h x (List.mem_cons_of_mem c hx)]

theorem seqOk {α β : Type} {p : Prs α} {k : α → Prs β} {s : List Char} {a : α}
    {r : List Char} (h : p s = .ok a r) : pseq p k s = k a r := by
  simp [pseq, h]

theorem splitDot_append (a b : List Char) (h : '.' ∉ a) :
    splitDot (a ++ '.' :: b) = some (a, b) := by
  induction a with
  | nil => simp [splitDot]
  | cons c r ih =>
    have hc : c ≠ '.' := fun hh => h (hh ▸ List.mem_cons_self c r)
    simp [splitDot, hc, ih fun hh => h (List.mem_cons_of_mem c hh)]

theorem finDig_digitChar10 (x : Nat) (h : x < 10) : finDig (digitChar x) = some ⟨x, h⟩ := by
  interval_cases x <;> rfl

theorem finDigs_map (fr : List (Fin 10)) :
    finDigs (fr.map fun d => digitChar d.val) = some fr := by
  induction fr with
  | nil => rfl
  | cons d ds ih =>
    simp [finDigs, finDig_digitChar10 d.val d.isLt, ih]

theorem intPrint_no_dot (i : Int) : '.' ∉ intPrint i := by
  intro h
  rcases intPrint_chars i '.' h with h1 | h1 <;> revert h1 <;> decide

theorem dParse_dPrint (ip : Int) (fr : List (Fin 10)) : dParse (dPrint ip fr) = some (ip, fr) := by
  simp [dParse, dPrint, splitDot_append _ _ (intPrint_no_dot ip), intParse_intPrint, finDigs_map]

theorem rd2_pad2 (n : Fin 100) (r : List Char) : rd2 (pad2 n ++ r) = some (n, r) := by
  have h1 := finDig_digitChar10 (n.val / 10) (by omega)
  have h2 := finDig_digitChar10 (n.val % 10) (by omega)
  simp [pad2, rd2, h1, h2, Fin.ext_iff]
  omega

theorem rd4_pad4 (n : Fin 10000) (r : List Char) : rd4 (pad4 n ++ r) = some (n, r) := by
  have h1 := finDig_digitChar10 (n.val / 1000) (by omega)
  have h2 := finDig_digitChar10 (n.val / 100 % 10) (by omega)
  have h3 := finDig_digitChar10 (n.val / 10 % 10) (by omega)
  have h4 := finDig_digitChar10 (n.val % 10) (by omega)
  simp [pad4, rd4, h1, h2, h3, h4, Fin.ext_iff]
  omega

theorem chC_cons (c : Char) (r : List Char) : chC c (c :: r) = some r := by
  simp [chC]

theorem dtParse_dtPrint (y : Fin 10000) (mo d h mi s : Fin 100) :
    dtParse (dtPrint y mo d h mi s) = some (y, mo, d, h, mi, s) := by
  have hlast : rd2 (pad2 s) = some (s, []) := by
    have := rd2_pad2 s []
    simpa using this
  simp [dtParse, dtPrint, rd4_pad4, rd2_pad2, chC_cons, hlast]

theorem b64v_b64cN (x : Nat) (h : x < 64) : b64v (b64c x) = some ⟨x, h⟩ := by
  interval_cases x <;> rfl

theorem b64c_classN (x : Nat) (h : x < 64) :
    b64c x ≠ '=' ∧ b64c x ≠ '<' ∧ b64c x ≠ '&' := by
  interval_cases x <;> decide

theorem b64dec_b64enc_aux : ∀ n (bs : List (Fin 256)), bs.length ≤ n →
    b64dec (b64enc bs) = some bs := by
  intro n
  induction n with
  | zero =>
    intro bs h
    cases bs with
    | nil => rfl
    | cons a r => simp at h
  | succ n ih =>
    intro bs h
    match bs with
    | [] => rfl
    | [a] =>
      have h1 := b64v_b64cN (a.val / 4) (by omega)
      have h2 := b64v_b64cN (a.val % 4 * 16) (by omega)
      simp [b64enc, b64dec, h1, h2, Fin.ext_iff]
      omega
    | [a, b] =>
      have h1 := b64v_b64cN (a.val / 4) (by omega)
      have h2 := b64v_b64cN (a.val % 4 * 16 + b.val / 16) (by omega)
      have h3 := b64v_b64cN (b.val % 16 * 4) (by omega)
      have hne := (b64c_classN (b.val % 16 * 4) (by omega)).1
      simp [b64enc, b64dec, hne, h1, h2, h3, Fin.ext_iff]
      omega
    | a :: b :: c :: r =>
      have h1 := b64v_b64cN (a.val / 4) (by omega)
      have h2 := b64v_b64cN (a.val % 4 * 16 + b.val / 16) (by omega)
      have h3 := b64v_b64cN (b.val % 16 * 4 + c.val / 64) (by omega)
      have h4 := b64v_b64cN (c.val % 64) (by omega)
      have hne3 := (b64c_classN (b.val % 16 * 4 + c.val / 64) (by omega)).1
      have hne4 := (b64c_classN (c.val % 64) (by omega)).1
      have hr : b64dec (b64enc r) = some r := by
        apply ih
        simp at h
        omega
      simp [b64enc, b64dec, hne3, hne4, h1, h2, h3, h4, hr, Fin.ext_iff]
      omega

theorem b64dec_b64enc (bs : List (Fin 256)) : b64dec (b64enc bs) = some bs :=
  b64dec_b64enc_aux bs.length bs le_rfl

theorem b64enc_chars_aux : ∀ n (bs : List (Fin 256)), bs.length ≤ n →
    ∀ ch ∈ b64enc bs, ch ≠ '<' ∧ ch ≠ '&' := by
  intro n
  induction n with
  | zero =>
    intro bs h
    cases bs with
    | nil => simp [b64enc]
    | cons a r => simp at h
  | succ n ih =>
    intro bs h ch hch
    match bs with
    | [] => simp [b64enc] at hch
    | [a] =>
      simp [b64enc] at hch
      rcases hch with rfl | rfl | rfl
      · exact ⟨(b64c_classN _ (by omega)).2.1, (b64c_classN _ (by omega)).2.2⟩
      · exact ⟨(b64c_classN _ (by omega)).2.1, (b64c_classN _ (by omega)).2.2⟩
      · decide
    | [a, b] =>
      simp [b64enc] at hch
      rcases hch with rfl | rfl | rfl | rfl
      · exact ⟨(b64c_classN _ (by omega)).2.1, (b64c_classN _ (by omega)).2.2⟩
      · exact ⟨(b64c_classN _ (by omega)).2.1, (b64c_classN _ (by omega)).2.2⟩
      · exact ⟨(b64c_classN _ (by omega)).2.1, (b64c_classN _ (by omega)).2.2⟩
      · decide
    | a :: b :: c :: r =>
      simp [b64enc] at hch
      rcases hch with rfl | rfl | rfl | rfl | hch
      · exact ⟨(b64c_classN _ (by omega)).2.1, (b64c_classN _ (by omega)).2.2⟩
      · exact ⟨(b64c_classN _ (by omega)).2.1, (b64c_classN _ (by omega)).2.2⟩
      · exact ⟨(b64c_classN _ (by omega)).2.1, (b64c_classN _ (by omega)).2.2⟩
      · exact ⟨(b64c_classN _ (by omega)).2.1, (b64c_classN _ (by omega)).2.2⟩
      · exact ih r (by simp at h; omega) ch hch

theorem b64enc_chars (bs : List (Fin 256)) : ∀ ch ∈ b64enc bs, ch ≠ '<' ∧ ch ≠ '&' :=
  b64enc_chars_aux bs.length bs le_rfl

theorem digit_ne_special (x : Nat) (h : 48 ≤ x ∧ x ≤ 57) (c : Char) (hc : c.toNat = x) :
    c ≠ '<' ∧ c ≠ '&' := by
  constructor <;> intro hh <;> subst hh <;> revert hc <;> simp <;> omega

theorem intPrint_chars_ok (i : Int) : ∀ c ∈ intPrint i, c ≠ '<' ∧ c ≠ '&' := by
  intro c hc
  rcases intPrint_chars i c hc with h1 | h1
  · constructor <;> intro hh <;> subst hh <;> revert h1 <;> decide
  · exact digit_ne_special c.toNat h1 c rfl

theorem dPrint_chars (ip : Int) (fr : List (Fin 10)) :
    ∀ c ∈ dPrint ip fr, c ≠ '<' ∧ c ≠ '&' := by
  intro c hc
  simp only [dPrint, List.mem_append, List.mem_cons, List.mem_map] at hc
  rcases hc with hc | hc | ⟨d, _, rfl⟩
  · exact intPrint_chars_ok ip c hc
  · subst hc; decide
  · have : (digitChar d.val).toNat = 48 + d.val := digitChar_toNat d.val d.isLt
    exact digit_ne_special _ (by omega) _ this

theorem pad2_chars (n : Fin 100) : ∀ c ∈ pad2 n, c ≠ '<' ∧ c ≠ '&' := by
  intro c hc
  simp only [pad2, List.mem_cons, List.mem_singleton] at hc
  rcases hc with rfl | rfl | h
  · exact digit_ne_special _ ⟨by omega, by omega⟩ _ (digitChar_toNat _ (by omega))
  · exact digit_ne_special _ ⟨by omega, by omega⟩ _ (digitChar_toNat _ (by omega))
  · simp at h

theorem pad4_chars (n : Fin 10000) : ∀ c ∈ pad4 n, c ≠ '<' ∧ c ≠ '&' := by
  intro c hc
  simp only [pad4, List.mem_cons, List.mem_singleton] at hc
  rcases hc with rfl | rfl | rfl | rfl | h
  · exact digit_ne_special _ ⟨by omega, by omega⟩ _ (digitChar_toNat _ (by omega))
  · exact digit_ne_special _ ⟨by omega, by omega⟩ _ (digitChar_toNat _ (by omega))
  · exact digit_ne_special _ ⟨by omega, by omega⟩ _ (digitChar_toNat _ (by omega))
  · exact digit_ne_special _ ⟨by omega, by omega⟩ _ (digitChar_toNat _ (by omega))
  · simp at h

theorem dtPrint_chars (y : Fin 10000) (mo d h mi s : Fin 100) :
    ∀ c ∈ dtPrint y mo d h mi s, c ≠ '<' ∧ c ≠ '&' := by
  intro c hc
  simp only [dtPrint, List.mem_append, List.mem_cons] at hc
  rcases hc with ((hc | hc) | hc) | rfl | hc | rfl | hc | rfl | hc
  · exact pad4_chars y c hc
  · exact pad2_chars mo c hc
  · exact pad2_chars d c hc
  · decide
  · exact pad2_chars h c hc
  · decide
  · exact pad2_chars mi c hc
  · decide
  · exact pad2_chars s c hc

theorem vsize_pos : ∀ v, 1 ≤ vsize v := by
  intro v
  cases v <;> simp [vsize] <;> omega

theorem rtAll : ∀ f,
    (∀ v rest, WFv v → vsize v ≤ f →
      pValueBody f (printBody v ++ '<' :: '/' :: 'v' :: 'a' :: 'l' :: 'u' :: 'e' :: '>' :: rest) =
        .ok v rest) ∧
    (∀ xs rest, (∀ v ∈ xs, WFv v) → isize xs + 1 ≤ f →
      pItems f (printItems xs ++ '<' :: '/' :: 'd' :: 'a' :: 't' :: 'a' :: '>' :: rest) =
        .ok xs rest) ∧
    (∀ ms rest, (∀ p ∈ ms, WFv p.2) → msize ms + 1 ≤ f →
      pMembers f (printMembers ms ++ '<' :: '/' :: 's' :: 't' :: 'r' :: 'u' :: 'c' :: 't' :: '>' :: rest) =
        .ok ms rest) ∧
    (∀ vs rest, (∀ v ∈ vs, WFv v) → psize vs + 1 ≤ f →
      pParams f (printParams vs ++ '<' :: '/' :: 'p' :: 'a' :: 'r' :: 'a' :: 'm' :: 's' :: '>' :: rest) =
        .ok vs rest) := by
  intro f
  induction f with
  | zero =>
    refine ⟨?_, ?_, ?_, ?_⟩
    · intro v rest _ hsz
      have := vsize_pos v
      omega
    · intro xs rest _ hsz
      omega
    · intro ms rest _ hsz
      omega
    · intro vs rest _ hsz
      omega
  | succ f ih =>
    obtain ⟨ihv, ihi, ihm, ihp⟩ := ih
    refine ⟨?_, ?_, ?_, ?_⟩
    · intro v rest hwf hsz
      cases v with
      | int n =>
        have hrt : ∀ X, readText (intPrint n ++ '<' :: X) = .ok (intPrint n) X := fun X =>
          readText_plain _ X (fun hh => absurd rfl (intPrint_chars_ok n '<' hh).1)
            (fun c hc => (intPrint_chars_ok n c hc).2)
        simp [pValueBody, printBody, pVB, tagKind, boolParse, pClose, pseq, pok, readTag, readTagA, expectP,
          expectA, sl, List.append_assoc, readText_lt, hrt, intParse_intPrint]
      | bool b =>
        have h1 : ∀ X, readText ('1' :: '<' :: X) = .ok ['1'] X := fun X =>
          readText_plain ['1'] X (by decide) (by decide)
        have h0 : ∀ X, readText ('0' :: '<' :: X) = .ok ['0'] X := fun X =>
          readText_plain ['0'] X (by decide) (by decide)
        cases b <;>
          simp [pValueBody, printBody, pVB, tagKind, boolParse, pClose, pseq, pok, readTag, readTagA, expectP,
            expectA, sl, List.append_assoc, readText_lt, h1, h0]
      | str s =>
        have hrt : ∀ X, readText (escape s ++ '<' :: X) = .ok s X := fun X => readText_esc s X
        simp [pValueBody, printBody, pVB, tagKind, boolParse, pClose, pseq, pok, readTag, readTagA, expectP,
          expectA, sl, List.append_assoc, readText_lt, hrt]
      | double ip fr =>
        have hrt : ∀ X, readText (dPrint ip fr ++ '<' :: X) = .ok (dPrint ip fr) X := fun X =>
          readText_plain _ X (fun hh => absurd rfl (dPrint_chars ip fr '<' hh).1)
            (fun c hc => (dPrint_chars ip fr c hc).2)
        simp [pValueBody, printBody, pVB, tagKind, boolParse, pClose, pseq, pok, readTag, readTagA, expectP,
          expectA, sl, List.append_assoc, readText_lt, hrt, dParse_dPrint]
      | dateTime y mo d h mi s =>
        have hrt : ∀ X, readText (dtPrint y mo d h mi s ++ '<' :: X) =
            .ok (dtPrint y mo d h mi s) X := fun X =>
          readText_plain _ X (fun hh => absurd rfl (dtPrint_chars y mo d h mi s '<' hh).1)
            (fun c hc => (dtPrint_chars y mo d h mi s c hc).2)
        simp [pValueBody, printBody, pVB, tagKind, boolParse, pClose, pseq, pok, readTag, readTagA, expectP,
          expectA, sl, List.append_assoc, readText_lt, hrt, dtParse_dtPrint]
      | base64 bs =>
        have hrt : ∀ X, readText (b64enc bs ++ '<' :: X) = .ok (b64enc bs) X := fun X =>
          readText_plain _ X (fun hh => absurd rfl (b64enc_chars bs '<' hh).1)
            (fun c hc => (b64enc_chars bs c hc).2)
        simp [pValueBody, printBody, pVB, tagKind, boolParse, pClose, pseq, pok, readTag, readTagA, expectP,
          expectA, sl, List.append_assoc, readText_lt, hrt, b64dec_b64enc]
      | array xs =>
        cases hwf with
        | array _ helems =>
          simp only [vsize] at hsz
          have hitems := ihi xs
            ('<' :: '/' :: 'a' :: 'r' :: 'r' :: 'a' :: 'y' :: '>' ::
              '<' :: '/' :: 'v' :: 'a' :: 'l' :: 'u' :: 'e' :: '>' :: rest)
            helems (by omega)
          simp [pValueBody, printBody, pVB, tagKind, boolParse, pClose, pseq, pok, readTag, readTagA, expectP,
            expectA, sl, List.append_assoc, readText_lt, hitems]
      | strct ms =>
        cases hwf with
        | strct _ hnodup helems =>
          simp only [vsize] at hsz
          have hmem := ihm ms
            ('<' :: '/' :: 'v' :: 'a' :: 'l' :: 'u' :: 'e' :: '>' :: rest)
            helems (by omega)
          simp [pValueBody, printBody, pVB, tagKind, boolParse, pClose, pseq, pok, readTag, readTagA, expectP,
            expectA, sl, List.append_assoc, readText_lt, hmem, hnodup]
      | nil =>
        simp [pValueBody, printBody, pVB, tagKind, boolParse, pClose, pseq, pok, readTag, readTagA, expectP,
          expectA, sl, List.append_assoc, readText_lt]
    · intro xs rest hwfe hsz
      cases xs with
      | nil =>
        simp [pItems, printItems, pseq, pok, readTag, readTagA, expectP, expectA, sl,
          readText_lt]
      | cons v vs =>
        have hwfv := hwfe v (List.mem_cons_self v vs)
        have hwfvs : ∀ x ∈ vs, WFv x := fun x hx => hwfe x (List.mem_cons_of_mem v hx)
        simp only [isize] at hsz
        have hv := ihv v
          (printItems vs ++ '<' :: '/' :: 'd' :: 'a' :: 't' :: 'a' :: '>' :: rest)
          hwfv (by omega)
        have hvs := ihi vs rest hwfvs (by omega)
        simp [pItems, printItems, pseq, pok, readTag, readTagA, expectP, expectA, sl,
          List.append_assoc, readText_lt, hv, hvs]
    · intro ms rest hwfe hsz
      cases ms with
      | nil =>
        simp [pMembers, printMembers, pseq, pok, readTag, readTagA, expectP, expectA, sl,
          readText_lt]
      | cons p ms =>
        obtain ⟨nm, v⟩ := p
        have hwfv : WFv v := hwfe (nm, v) (List.mem_cons_self _ ms)
        have hwfms : ∀ q ∈ ms, WFv q.2 := fun q hq => hwfe q (List.mem_cons_of_mem _ hq)
        simp only [msize] at hsz
        have hname : ∀ X, readText (escape nm ++ '<' :: X) = .ok nm X := fun X =>
          readText_esc nm X
        have hv := ihv v
          ('<' :: '/' :: 'm' :: 'e' :: 'm' :: 'b' :: 'e' :: 'r' :: '>' ::
            (printMembers ms ++ '<' :: '/' :: 's' :: 't' :: 'r' :: 'u' :: 'c' :: 't' :: '>' :: rest))
          hwfv (by omega)
        have hms := ihm ms rest hwfms (by omega)
        simp [pMembers, printMembers, pseq, pok, readTag, readTagA, expectP, expectA, sl,
          List.append_assoc, readText_lt, hname, hv, hms]
    · intro vs rest hwfe hsz
      cases vs with
      | nil =>
        simp [pParams, printParams, pseq, pok, readTag, readTagA, expectP, expectA, sl,
          readText_lt]
      | cons v vs =>
        have hwfv := hwfe v (List.mem_cons_self v vs)
        have hwfvs : ∀ x ∈ vs, WFv x := fun x hx => hwfe x (List.mem_cons_of_mem v hx)
        simp only [psize] at hsz
        have hv := ihv v
          ('<' :: '/' :: 'p' :: 'a' :: 'r' :: 'a' :: 'm' :: '>' ::
            (printParams vs ++ '<' :: '/' :: 'p' :: 'a' :: 'r' :: 'a' :: 'm' :: 's' :: '>' :: rest))
          hwfv (by omega)
        have hvs := ihp vs rest hwfvs (by omega)
        simp [pParams, printParams, printValue, pseq, pok, readTag, readTagA, expectP, expectA,
          sl, List.append_assoc, readText_lt, hv, hvs]

theorem sizeLen : ∀ n,
    (∀ v, vsize v ≤ n → vsize v ≤ (printBody v).length) ∧
    (∀ xs, isize xs ≤ n → isize xs ≤ (printItems xs).length) ∧
    (∀ ms, msize ms ≤ n → msize ms ≤ (printMembers ms).length) := by
  intro n
  induction n with
  | zero =>
    refine ⟨?_, ?_, ?_⟩
    · intro v h
      have := vsize_pos v
      omega
    · intro xs h
      omega
    · intro ms h
      omega
  | succ n ih =>
    obtain ⟨ihv, ihi, ihm⟩ := ih
    refine ⟨?_, ?_, ?_⟩
    · intro v hb
      cases v with
      | int k => simp [printBody, vsize, sl] <;> omega
      | bool b => cases b <;> simp [printBody, vsize, sl]
      | str s => simp [printBody, vsize, sl] <;> omega
      | double ip fr => simp [printBody, vsize, sl] <;> omega
      | dateTime y mo d h mi s => simp [printBody, vsize, sl] <;> omega
      | base64 bs => simp [printBody, vsize, sl] <;> omega
      | array xs =>
        simp only [vsize] at hb ⊢
        have := ihi xs (by omega)
        simp [printBody, sl]
        omega
      | strct ms =>
        simp only [vsize] at hb ⊢
        have := ihm ms (by omega)
        simp [printBody, sl]
        omega
      | nil => simp [printBody, vsize, sl]
    · intro xs hb
      cases xs with
      | nil => simp [printItems, isize]
      | cons v vs =>
        simp only [isize] at hb ⊢
        have h1 := ihv v (by omega)
        have h2 := ihi vs (by omega)
        simp [printItems, sl]
        omega
    · intro ms hb
      cases ms with
      | nil => simp [printMembers, msize]
      | cons p ms =>
        obtain ⟨nm, v⟩ := p
        simp only [msize] at hb ⊢
        have h1 := ihv v (by omega)
        have h2 := ihm ms (by omega)
        simp [printMembers, sl]
        omega

theorem vsize_le_len (v : Value) : vsize v ≤ (printBody v).length :=
  (sizeLen (vsize v)).1 v le_rfl

theorem decode_printCall (nm : List Char) (v : Value) (hwfv : WFv v)
    (hlt : '<' ∉ nm) (hamp : '&' ∉ nm) : decode (printCall nm [v]) = .success v := by
  have hargs : ∀ x ∈ [v], WFv x := by
    intro x hx
    rw [List.mem_singleton] at hx
    rw [hx]
    exact hwfv
  have hvl := vsize_le_len v
  have hfuel : psize [v] + 1 ≤ (printCall nm [v]).length := by
    simp [printCall, printParams, printValue, prologL, psize, psize, sl]
    omega
  have hnm : ∀ X, readText (nm ++ '<' :: X) = .ok nm X := fun X =>
    readText_plain nm X hlt (fun c hc hh => hamp (hh ▸ hc))
  have hdoc : ∀ F, psize [v] + 1 ≤ F → pDocF F (printCall nm [v]) = .ok (.call nm [v]) [] := by
    intro F hF
    have hparams := (rtAll F).2.2.2 [v]
      ('<' :: '/' :: 'm' :: 'e' :: 't' :: 'h' :: 'o' :: 'd' :: 'C' :: 'a' :: 'l' :: 'l' :: '>' :: [])
      hargs hF
    simp only [printParams, printValue, sl, List.append_assoc, List.cons_append,
      List.nil_append, List.append_nil] at hparams
    conv_lhs => rw [show printCall nm [v] = prologL ++ sl "<methodCall><methodName>" ++ nm ++
      sl "</methodName><params>" ++ printParams [v] ++ sl "</params></methodCall>" from rfl]
    simp [pDocF, pseq, pok, readTag, readTagA, expectP, expectA, prologL, sl,
      List.append_assoc, readText_lt, hnm, hparams, printParams, printValue]
  simp [decode, hdoc _ hfuel]

theorem decode_printResponse (v : Value) (hwfv : WFv v) :
    decode (printResponse v) = .success v := by
  have hargs : ∀ x ∈ [v], WFv x := by
    intro x hx
    rw [List.mem_singleton] at hx
    rw [hx]
    exact hwfv
  have hvl := vsize_le_len v
  have hfuel : psize [v] + 1 ≤ (printResponse v).length := by
    simp [printResponse, printValue, prologL, psize, sl]
    omega
  have hdoc : ∀ F, psize [v] + 1 ≤ F → pDocF F (printResponse v) = .ok (.resp [v]) [] := by
    intro F hF
    have hone := (rtAll F).2.2.2 [v]
      ('<' :: '/' :: 'm' :: 'e' :: 't' :: 'h' :: 'o' :: 'd' :: 'R' :: 'e' :: 's' :: 'p' :: 'o' :: 'n' :: 's' :: 'e' :: '>' :: [])
      hargs hF
    simp only [printParams, printValue, sl, List.append_assoc, List.cons_append,
      List.nil_append, List.append_nil] at hone
    conv_lhs => rw [show printResponse v = prologL ++ sl "<methodResponse><params><param>" ++
      printValue v ++ sl "</param></params></methodResponse>" from rfl]
    simp [pDocF, pseq, pok, readTag, readTagA, expectP, expectA, prologL, sl,
      List.append_assoc, readText_lt, hone, printValue]
  simp [decode, hdoc _ hfuel]

theorem split_pre {α : Type} : ∀ (u x y w : List α), x ++ y = u ++ w → u.length ≤ x.length →
    ∃ s, x = u ++ s ∧ w = s ++ y := by
  intro u
  induction u with
  | nil =>
    intro x y w h _
    exact ⟨x, rfl, h.symm⟩
  | cons a u ih =>
    intro x y w h hl
    cases x with
    | nil => simp at hl
    | cons c x =>
      simp only [List.cons_append] at h
      obtain ⟨h1, h2⟩ := List.cons.injEq .. ▸ h
      obtain ⟨s, hs1, hs2⟩ := ih x y w h2 (by simpa using hl)
      exact ⟨s, by rw [h1, hs1]; rfl, hs2⟩

theorem paOk {α : Type} (a : α) : PA (pok a) := by
  intro s b r h
  simp only [pok, Res.ok.injEq] at h
  exact ⟨[], by simp [h.2], fun t => by simp [pok, h.1]⟩

theorem paFail {α : Type} (e : PErr) : PA (@pfail α e) := by
  intro s b r h
  simp [pfail] at h

theorem paSeq {α β : Type} {p : Prs α} {k : α → Prs β} (hp : PA p) (hk : ∀ a, PA (k a)) :
    PA (pseq p k) := by
  intro s b r h
  simp only [pseq] at h
  cases hps : p s with
  | bad e => rw [hps] at h; simp at h
  | ok a r1 =>
    rw [hps] at h
    obtain ⟨c1, hs1, hd1⟩ := hp s a r1 hps
    obtain ⟨c2, hs2, hd2⟩ := hk a r1 b r h
    refine ⟨c1 ++ c2, ?_, ?_⟩
    · rw [hs1, hs2, List.append_assoc]
    · intro t
      simp only [pseq, List.append_assoc, hd1 (c2 ++ t)]
      exact hd2 t

theorem expectA_ok : ∀ pat s r, expectA pat s = .ok () r → s = pat ++ r := by
  intro pat
  induction pat with
  | nil =>
    intro s r h
    simp only [expectA, Res.ok.injEq, true_and] at h
    rw [h]
    rfl
  | cons p ps ih =>
    intro s r h
    cases s with
    | nil => simp [expectA] at h
    | cons c cs =>
      simp only [expectA] at h
      by_cases hc : c = p
      · rw [if_pos hc] at h
        rw [hc, List.cons_append, ih cs r h]
      · rw [if_neg hc] at h
        simp at h

theorem paExpect (pat : List Char) : PA (expectP pat) := by
  intro s a r h
  obtain ⟨⟩ := a
  refine ⟨pat, expectA_ok pat s r h, fun t => expectA_pre pat t⟩

theorem paReadText : PA readText := by
  intro s a r h
  simp only [readText] at h
  cases hr : readRaw s with
  | none => rw [hr] at h; simp at h
  | some p =>
    rw [hr] at h
    obtain ⟨raw, r2⟩ := p
    dsimp only at h
    obtain ⟨hs, hmem⟩ := readRaw_some s raw r2 hr
    cases hu : unesc raw with
    | none => rw [hu] at h; simp at h
    | some t =>
      rw [hu] at h
      simp only [Res.ok.injEq] at h
      obtain ⟨rfl, rfl⟩ := h
      refine ⟨raw ++ ['<'], by simpa [List.append_assoc] using hs, fun t2 => ?_⟩
      simp [readText, List.append_assoc, readRaw_append raw t2 hmem, hu]

theorem readTagA_ok : ∀ s tag r, readTagA s = .ok tag r →
    s = tag ++ '>' :: r ∧ (∀ c ∈ tag, c ≠ '>' ∧ c ≠ '<') := by
  intro s
  induction s with
  | nil => intro tag r h; simp [readTagA] at h
  | cons c cs ih =>
    intro tag r h
    simp only [readTagA] at h
    by_cases h1 : c = '>'
    · rw [if_pos h1] at h
      simp only [Res.ok.injEq] at h
      obtain ⟨rfl, rfl⟩ := h
      subst h1
      exact ⟨rfl, by simp⟩
    · rw [if_neg h1] at h
      by_cases h2 : c = '<'
      · rw [if_pos h2] at h
        simp at h
      · rw [if_neg h2] at h
        cases hrec : readTagA cs with
        | bad e => rw [hrec] at h; simp at h
        | ok t r2 =>
          rw [hrec] at h
          simp only [Res.ok.injEq] at h
          obtain ⟨rfl, rfl⟩ := h
          obtain ⟨hs, hchars⟩ := ih t r2 hrec
          refine ⟨by rw [hs]; rfl, ?_⟩
          intro x hx
          rcases List.mem_cons.mp hx with rfl | hx
          · exact ⟨h1, h2⟩
          · exact hchars x hx

theorem paReadTag : PA readTag := by
  intro s a r h
  obtain ⟨hs, hchars⟩ := readTagA_ok s a r h
  refine ⟨a ++ ['>'], by simpa [List.append_assoc] using hs, fun t => ?_⟩
  show readTagA (a ++ ['>'] ++ t) = Res.ok a t
  rw [List.append_assoc]
  exact readTag_pre a t hchars

theorem paClose {α : Type} (a : α) (closing : List Char) : PA (pClose a closing) :=
  paSeq (paExpect closing) fun _ => paSeq (paExpect (sl "</value>")) fun _ => paOk a

theorem stabRefl {α : Type} {p : Prs α} : PStab p p := fun _ _ _ h => .inl h

theorem stabFail0 {α : Type} {p : Prs α} : PStab p (pfail .incomplete) :=
  fun _ _ _ _ => .inr rfl

theorem stabVac {α : Type} {e : PErr} {q : Prs α} : PStab (pfail e) q := by
  intro s a r h
  simp [pfail] at h

theorem stabSeq {α β : Type} {p p' : Prs α} {k k' : α → Prs β} (hp : PStab p p')
    (hk : ∀ a, PStab (k a) (k' a)) : PStab (pseq p k) (pseq p' k') := by
  intro s b r h
  simp only [pseq] at h ⊢
  cases hps : p s with
  | bad e => rw [hps] at h; simp at h
  | ok a r1 =>
    rw [hps] at h
    rcases hp s a r1 hps with h2 | h2
    · rw [h2]
      exact hk a r1 b r h
    · rw [h2]
      exact .inr rfl

theorem bbFail0 {α : Type} {p : Prs α} : PBb p (pfail .incomplete) :=
  fun _ _ _ _ _ _ _ _ => rfl

theorem bbVac {α : Type} {e : PErr} {q : Prs α} : PBb (pfail e) q := by
  intro c r a h
  simp [pfail] at h

theorem bbOk {α : Type} (a : α) : PBb (pok a) (pok a) := by
  intro c r b h u w hcw hw
  simp only [pok, Res.ok.injEq] at h
  exfalso
  have h3 := congrArg List.length h.2
  simp only [List.length_append] at h3
  have hl2 := congrArg List.length hcw
  simp only [List.length_append] at hl2
  exact hw (List.eq_nil_of_length_eq_zero (by omega))

theorem expectA_pre_incomplete : ∀ u w, w ≠ [] → expectA (u ++ w) u = .bad .incomplete := by
  intro u
  induction u with
  | nil =>
    intro w hw
    cases w with
    | nil => exact absurd rfl hw
    | cons c r => rfl
  | cons c u ih =>
    intro w hw
    simp only [List.cons_append, expectA, if_pos rfl]
    exact ih w hw

theorem bbExpect (pat : List Char) : PBb (expectP pat) (expectP pat) := by
  intro c r a h u w hcw hw
  have hc : c = pat := by
    have := expectA_ok pat (c ++ r) r h
    exact List.append_cancel_right this
  subst hc
  rw [hcw]
  show expectA (u ++ w) u = .bad .incomplete
  exact expectA_pre_incomplete u w hw

theorem bbReadText : PBb readText readText := by
  intro c r a h u w hcw hw
  simp only [readText] at h
  cases hr : readRaw (c ++ r) with
  | none => rw [hr] at h; simp at h
  | some p =>
    rw [hr] at h
    obtain ⟨raw, r2⟩ := p
    dsimp only at h
    obtain ⟨hs, hmem⟩ := readRaw_some (c ++ r) raw r2 hr
    cases hu : unesc raw with
    | none => rw [hu] at h; simp at h
    | some t =>
      rw [hu] at h
      simp only [Res.ok.injEq] at h
      obtain ⟨rfl, rfl⟩ := h
      have hc : c = raw ++ ['<'] := by
        apply List.append_cancel_right
        simpa [List.append_assoc] using hs
      have hul : u.length ≤ raw.length := by
        have := congrArg List.length hc
        rw [hcw] at this
        simp at this
        have hwlen : 1 ≤ w.length := by
          cases w with
          | nil => exact absurd rfl hw
          | cons _ _ => simp
        omega
      obtain ⟨s2, hraw, -⟩ := split_pre u raw ['<'] w (by rw [← hcw, hc]) hul
      have humem : '<' ∉ u := fun hh => hmem (hraw ▸ List.mem_append_left s2 hh)
      simp [readText, readRaw_none u humem]

theorem readTagA_incomplete : ∀ u, (∀ c ∈ u, c ≠ '>' ∧ c ≠ '<') →
    readTagA u = .bad .incomplete := by
  intro u
  induction u with
  | nil => intro _; rfl
  | cons c cs ih =>
    intro h
    have hc := h c (List.mem_cons_self c cs)
    simp [readTagA, hc.1, hc.2, ih fun x hx => h x (List.mem_cons_of_mem c hx)]

theorem bbReadTag : PBb readTag readTag := by
  intro c r a h u w hcw hw
  obtain ⟨hs, hchars⟩ := readTagA_ok (c ++ r) a r h
  have hc : c = a ++ ['>'] := by
    apply List.append_cancel_right
    simpa [List.append_assoc] using hs
  have hul : u.length ≤ a.length := by
    have h1 := congrArg List.length hc
    rw [hcw] at h1
    simp at h1
    have hwlen : 1 ≤ w.length := by
      cases w with
      | nil => exact absurd rfl hw
      | cons _ _ => simp
    omega
  obtain ⟨s2, ha, -⟩ := split_pre u a ['>'] w (by rw [← hcw, hc]) hul
  have humem : ∀ x ∈ u, x ≠ '>' ∧ x ≠ '<' := fun x hx =>
    hchars x (ha ▸ List.mem_append_left s2 hx)
  exact readTagA_incomplete u humem

theorem bbSeq {α β : Type} {p p' : Prs α} {k k' : α → Prs β}
    (hpa : PA p) (hps : PStab p p') (hpb : PBb p p')
    (hka : ∀ a, PA (k a)) (hks : ∀ a, PStab (k a) (k' a)) (hkb : ∀ a, PBb (k a) (k' a)) :
    PBb (pseq p k) (pseq p' k') := by
  intro c r b h u w hcw hw
  simp only [pseq] at h ⊢
  cases hrun : p (c ++ r) with
  | bad e => rw [hrun] at h; simp at h
  | ok a r1 =>
    rw [hrun] at h
    obtain ⟨c1, hs1, hd1⟩ := hpa (c ++ r) a r1 hrun
    obtain ⟨c2, hs2, hd2⟩ := hka a r1 b r h
    have hc : c = c1 ++ c2 := by
      apply List.append_cancel_right
      rw [hs1, hs2, List.append_assoc]
    subst hc
    rcases le_or_lt u.length c1.length with hle | hlt
    · obtain ⟨s, hc1, hws⟩ := split_pre u c1 c2 w hcw hle
      cases s with
      | nil =>
        rw [List.append_nil] at hc1
        rw [List.nil_append] at hws
        have hok : p u = .ok a [] := by
          have h9 := hd1 []
          rw [List.append_nil, hc1] at h9
          exact h9
        rcases hps u a [] hok with h2 | h2
        · rw [h2]
          have hc2 : c2 ≠ [] := fun hce => hw (by rw [hws, hce])
          have hrun2 : k a (c2 ++ r) = .ok b r := by
            rw [← hs2]
            exact h
          exact hkb a c2 r b hrun2 [] c2 rfl hc2
        · rw [h2]
      | cons x s =>
        have hrun1 : p (c1 ++ r1) = .ok a r1 := hd1 r1
        have h9 := hpb c1 r1 a hrun1 u (x :: s) hc1 (by simp)
        rw [h9]
    · obtain ⟨s, hu, hc2⟩ := split_pre c1 u w c2 hcw.symm (le_of_lt hlt)
      have hok : p (c1 ++ s) = .ok a s := hd1 s
      rw [← hu] at hok
      rcases hps u a s hok with h2 | h2
      · rw [h2]
        have hrun2 : k a (c2 ++ r) = .ok b r := by
          rw [← hs2]
          exact h
        exact hkb a c2 r b hrun2 s w hc2 hw
      · rw [h2]

theorem bbClose {α : Type} (a : α) (closing : List Char) :
    PBb (pClose a closing) (pClose a closing) :=
  bbSeq (paExpect closing) stabRefl (bbExpect closing)
    (fun _ => paSeq (paExpect (sl "</value>")) fun _ => paOk a)
    (fun _ => stabRefl)
    (fun _ => bbSeq (paExpect (sl "</value>")) stabRefl (bbExpect (sl "</value>"))
      (fun _ => paOk a) (fun _ => stabRefl) (fun _ => bbOk a))

theorem stabClose {α : Type} (a : α) (closing : List Char) :
    PStab (pClose a closing) (pClose a closing) := stabRefl

theorem pVB_a {pIt : Prs (List Value)} {pMe : Prs (List (List Char × Value))}
    (hIt : PA pIt) (hMe : PA pMe) (t tag : List Char) : PA (pVB pIt pMe t tag) := by
  unfold pVB
  split
  · exact paOk _
  · split
    · exact paFail _
    · refine paSeq paReadText fun d => ?_
      cases intParse d
      · exact paFail _
      · exact paClose _ _
  · split
    · exact paFail _
    · refine paSeq paReadText fun d => ?_
      cases boolParse d
      · exact paFail _
      · exact paClose _ _
  · split
    · exact paFail _
    · exact paSeq paReadText fun d => paClose _ _
  · split
    · exact paFail _
    · refine paSeq paReadText fun d => ?_
      cases dParse d
      · exact paFail _
      · exact paClose _ _
  · split
    · exact paFail _
    · refine paSeq paReadText fun d => ?_
      cases dtParse d
      · exact paFail _
      · exact paClose _ _
  · split
    · exact paFail _
    · refine paSeq paReadText fun d => ?_
      cases b64dec d
      · exact paFail _
      · exact paClose _ _
  · split
    · exact paFail _
    · exact paSeq (paExpect _) fun _ => paOk _
  · split
    · exact paFail _
    · exact paSeq (paExpect _) fun _ => paSeq hIt fun xs => paClose _ _
  · split
    · exact paFail _
    · refine paSeq hMe fun ms => ?_
      split
      · exact paSeq (paExpect _) fun _ => paOk _
      · exact paFail _
  · exact paFail _

theorem pVB_stab {pIt pIt' : Prs (List Value)} {pMe pMe' : Prs (List (List Char × Value))}
    (hIt : PStab pIt pIt') (hMe : PStab pMe pMe') (t tag : List Char) :
    PStab (pVB pIt pMe t tag) (pVB pIt' pMe' t tag) := by
  unfold pVB
  split
  · exact stabRefl
  · exact stabRefl
  · exact stabRefl
  · exact stabRefl
  · exact stabRefl
  · exact stabRefl
  · exact stabRefl
  · exact stabRefl
  · split
    · exact stabRefl
    · exact stabSeq stabRefl fun _ => stabSeq hIt fun xs => stabRefl
  · split
    · exact stabRefl
    · refine stabSeq hMe fun ms => ?_
      split
      · exact stabRefl
      · exact stabRefl
  · exact stabRefl

theorem pVB_bb {pIt pIt' : Prs (List Value)} {pMe pMe' : Prs (List (List Char × Value))}
    (hItA : PA pIt) (hItS : PStab pIt pIt') (hItB : PBb pIt pIt')
    (hMeA : PA pMe) (hMeS : PStab pMe pMe') (hMeB : PBb pMe pMe') (t tag : List Char) :
    PBb (pVB pIt pMe t tag) (pVB pIt' pMe' t tag) := by
  unfold pVB
  split
  · exact bbOk _
  · split
    · exact bbVac
    · refine bbSeq paReadText stabRefl bbReadText (fun d => ?_) (fun d => ?_) (fun d => ?_)
      · cases intParse d
        · exact paFail _
        · exact paClose _ _
      · exact stabRefl
      · cases intParse d
        · exact bbVac
        · exact bbClose _ _
  · split
    · exact bbVac
    · refine bbSeq paReadText stabRefl bbReadText (fun d => ?_) (fun d => ?_) (fun d => ?_)
      · cases boolParse d
        · exact paFail _
        · exact paClose _ _
      · exact stabRefl
      · cases boolParse d
        · exact bbVac
        · exact bbClose _ _
  · split
    · exact bbVac
    · exact bbSeq paReadText stabRefl bbReadText (fun d => paClose _ _) (fun d => stabRefl)
        (fun d => bbClose _ _)
  · split
    · exact bbVac
    · refine bbSeq paReadText stabRefl bbReadText (fun d => ?_) (fun d => ?_) (fun d => ?_)
      · cases dParse d
        · exact paFail _
        · exact paClose _ _
      · exact stabRefl
      · cases dParse d
        · exact bbVac
        · exact bbClose _ _
  · split
    · exact bbVac
    · refine bbSeq paReadText stabRefl bbReadText (fun d => ?_) (fun d => ?_) (fun d => ?_)
      · cases dtParse d
        · exact paFail _
        · exact paClose _ _
      · exact stabRefl
      · cases dtParse d
        · exact bbVac
        · exact bbClose _ _
  · split
    · exact bbVac
    · refine bbSeq paReadText stabRefl bbReadText (fun d => ?_) (fun d => ?_) (fun d => ?_)
      · cases b64dec d
        · exact paFail _
        · exact paClose _ _
      · exact stabRefl
      · cases b64dec d
        · exact bbVac
        · exact bbClose _ _
  · split
    · exact bbVac
    · exact bbSeq (paExpect _) stabRefl (bbExpect _) (fun _ => paOk _) (fun _ => stabRefl)
        (fun _ => bbOk _)
  · split
    · exact bbVac
    · exact bbSeq (paExpect _) stabRefl (bbExpect _)
        (fun _ => paSeq hItA fun xs => paClose _ _)
        (fun _ => stabSeq hItS fun xs => stabRefl)
        (fun _ => bbSeq hItA hItS hItB (fun xs => paClose _ _) (fun xs => stabRefl)
          (fun xs => bbClose _ _))
  · split
    · exact bbVac
    · refine bbSeq hMeA hMeS hMeB (fun ms => ?_) (fun ms => ?_) (fun ms => ?_)
      · split
        · exact paSeq (paExpect _) fun _ => paOk _
        · exact paFail _
      · exact stabRefl
      · split
        · exact bbSeq (paExpect _) stabRefl (bbExpect _) (fun _ => paOk _) (fun _ => stabRefl)
            (fun _ => bbOk _)
        · exact bbVac
  · exact bbVac

theorem famA : ∀ f, PA (pValueBody f) ∧ PA (pItems f) ∧ PA (pMembers f) ∧ PA (pParams f) := by
  intro f
  induction f with
  | zero => exact ⟨paFail _, paFail _, paFail _, paFail _⟩
  | succ f ih =>
    obtain ⟨ihv, ihi, ihm, ihp⟩ := ih
    refine ⟨?_, ?_, ?_, ?_⟩
    · exact paSeq paReadText fun t => paSeq paReadTag fun tag => pVB_a ihi ihm t tag
    · refine paSeq paReadText fun t => ?_
      split
      · exact paFail _
      · refine paSeq paReadTag fun tag => ?_
        split
        · exact paOk _
        · split
          · exact paSeq ihv fun v => paSeq ihi fun vs => paOk _
          · exact paFail _
    · refine paSeq paReadText fun t => ?_
      split
      · exact paFail _
      · refine paSeq paReadTag fun tag => ?_
        split
        · exact paOk _
        · split
          · exact paSeq (paExpect _) fun _ => paSeq paReadText fun nm =>
              paSeq (paExpect _) fun _ => paSeq (paExpect _) fun _ =>
                paSeq ihv fun v => paSeq (paExpect _) fun _ =>
                  paSeq ihm fun ms => paOk _
          · exact paFail _
    · refine paSeq paReadText fun t => ?_
      split
      · exact paFail _
      · refine paSeq paReadTag fun tag => ?_
        split
        · exact paOk _
        · split
          · exact paSeq (paExpect _) fun _ => paSeq ihv fun v =>
              paSeq (paExpect _) fun _ => paSeq ihp fun vs => paOk _
          · exact paFail _

theorem famStab : ∀ g,
    (∀ h, PStab (pValueBody h) (pValueBody g)) ∧
    (∀ h, PStab (pItems h) (pItems g)) ∧
    (∀ h, PStab (pMembers h) (pMembers g)) ∧
    (∀ h, PStab (pParams h) (pParams g)) := by
  intro g
  induction g with
  | zero => exact ⟨fun _ => stabFail0, fun _ => stabFail0, fun _ => stabFail0, fun _ => stabFail0⟩
  | succ g ihg =>
    obtain ⟨sv, si, sm, sp⟩ := ihg
    refine ⟨?_, ?_, ?_, ?_⟩
    · intro h
      cases h with
      | zero => exact stabVac
      | succ h =>
        exact stabSeq stabRefl fun t => stabSeq stabRefl fun tag =>
          pVB_stab (si h) (sm h) t tag
    · intro h
      cases h with
      | zero => exact stabVac
      | succ h =>
        refine stabSeq stabRefl fun t => ?_
        by_cases ht : t ≠ []
        · simp only [if_pos ht]
          exact stabVac
        · simp only [if_neg ht]
          refine stabSeq stabRefl fun tag => ?_
          by_cases h1 : tag = sl "/data"
          · simp only [if_pos h1]
            exact stabRefl
          · simp only [if_neg h1]
            by_cases h2 : tag = sl "value"
            · simp only [if_pos h2]
              exact stabSeq (sv h) fun v => stabSeq (si h) fun vs => stabRefl
            · simp only [if_neg h2]
              exact stabVac
    · intro h
      cases h with
      | zero => exact stabVac
      | succ h =>
        refine stabSeq stabRefl fun t => ?_
        by_cases ht : t ≠ []
        · simp only [if_pos ht]
          exact stabVac
        · simp only [if_neg ht]
          refine stabSeq stabRefl fun tag => ?_
          by_cases h1 : tag = sl "/struct"
          · simp only [if_pos h1]
            exact stabRefl
          · simp only [if_neg h1]
            by_cases h2 : tag = sl "member"
            · simp only [if_pos h2]
              exact stabSeq stabRefl fun _ => stabSeq stabRefl fun nm =>
                stabSeq stabRefl fun _ => stabSeq stabRefl fun _ =>
                  stabSeq (sv h) fun v => stabSeq stabRefl fun _ =>
                    stabSeq (sm h) fun ms => stabRefl
            · simp only [if_neg h2]
              exact stabVac
    · intro h
      cases h with
      | zero => exact stabVac
      | succ h =>
        refine stabSeq stabRefl fun t => ?_
        by_cases ht : t ≠ []
        · simp only [if_pos ht]
          exact stabVac
        · simp only [if_neg ht]
          refine stabSeq stabRefl fun tag => ?_
          by_cases h1 : tag = sl "/params"
          · simp only [if_pos h1]
            exact stabRefl
          · simp only [if_neg h1]
            by_cases h2 : tag = sl "param"
            · simp only [if_pos h2]
              exact stabSeq stabRefl fun _ => stabSeq (sv h) fun v =>
                stabSeq stabRefl fun _ => stabSeq (sp h) fun vs => stabRefl
            · simp only [if_neg h2]
              exact stabVac

theorem famBb : ∀ g,
    (∀ h, PBb (pValueBody h) (pValueBody g)) ∧
    (∀ h, PBb (pItems h) (pItems g)) ∧
    (∀ h, PBb (pMembers h) (pMembers g)) ∧
    (∀ h, PBb (pParams h) (pParams g)) := by
  intro g
  induction g with
  | zero => exact ⟨fun _ => bbFail0, fun _ => bbFail0, fun _ => bbFail0, fun _ => bbFail0⟩
  | succ g ihg =>
    obtain ⟨bv, bi, bm, bp⟩ := ihg
    refine ⟨?_, ?_, ?_, ?_⟩
    · intro h
      cases h with
      | zero => exact bbVac
      | succ h =>
        exact bbSeq paReadText stabRefl bbReadText
          (fun t => paSeq paReadTag fun tag => pVB_a (famA h).2.1 (famA h).2.2.1 t tag)
          (fun t => stabSeq stabRefl fun tag => pVB_stab ((famStab g).2.1 h) ((famStab g).2.2.1 h) t tag)
          (fun t => bbSeq paReadTag stabRefl bbReadTag
            (fun tag => pVB_a (famA h).2.1 (famA h).2.2.1 t tag)
            (fun tag => pVB_stab ((famStab g).2.1 h) ((famStab g).2.2.1 h) t tag)
            (fun tag => pVB_bb (famA h).2.1 ((famStab g).2.1 h) (bi h)
              (famA h).2.2.1 ((famStab g).2.2.1 h) (bm h) t tag))
    · intro h
      cases h with
      | zero => exact bbVac
      | succ h =>
        refine bbSeq paReadText stabRefl bbReadText (fun t => ?_) (fun t => ?_) (fun t => ?_)
        · by_cases ht : t ≠ []
          · simp only [if_pos ht]
            exact paFail _
          · simp only [if_neg ht]
            refine paSeq paReadTag fun tag => ?_
            by_cases h1 : tag = sl "/data"
            · simp only [if_pos h1]
              exact paOk _
            · simp only [if_neg h1]
              by_cases h2 : tag = sl "value"
              · simp only [if_pos h2]
                exact paSeq (famA h).1 fun v => paSeq (famA h).2.1 fun vs => paOk _
              · simp only [if_neg h2]
                exact paFail _
        · by_cases ht : t ≠ []
          · simp only [if_pos ht]
            exact stabVac
          · simp only [if_neg ht]
            refine stabSeq stabRefl fun tag => ?_
            by_cases h1 : tag = sl "/data"
            · simp only [if_pos h1]
              exact stabRefl
            · simp only [if_neg h1]
              by_cases h2 : tag = sl "value"
              · simp only [if_pos h2]
                exact stabSeq ((famStab g).1 h) fun v => stabSeq ((famStab g).2.1 h) fun vs => stabRefl
              · simp only [if_neg h2]
                exact stabVac
        · by_cases ht : t ≠ []
          · simp only [if_pos ht]
            exact bbVac
          · simp only [if_neg ht]
            refine bbSeq paReadTag stabRefl bbReadTag (fun tag => ?_) (fun tag => ?_) (fun tag => ?_)
            · by_cases h1 : tag = sl "/data"
              · simp only [if_pos h1]
                exact paOk _
              · simp only [if_neg h1]
                by_cases h2 : tag = sl "value"
                · simp only [if_pos h2]
                  exact paSeq (famA h).1 fun v => paSeq (famA h).2.1 fun vs => paOk _
                · simp only [if_neg h2]
                  exact paFail _
            · by_cases h1 : tag = sl "/data"
              · simp only [if_pos h1]
                exact stabRefl
              · simp only [if_neg h1]
                by_cases h2 : tag = sl "value"
                · simp only [if_pos h2]
                  exact stabSeq ((famStab g).1 h) fun v => stabSeq ((famStab g).2.1 h) fun vs => stabRefl
                · simp only [if_neg h2]
                  exact stabVac
            · by_cases h1 : tag = sl "/data"
              · simp only [if_pos h1]
                exact bbOk _
              · simp only [if_neg h1]
                by_cases h2 : tag = sl "value"
                · simp only [if_pos h2]
                  exact bbSeq (famA h).1 ((famStab g).1 h) (bv h)
                    (fun v => paSeq (famA h).2.1 fun vs => paOk _)
                    (fun v => stabSeq ((famStab g).2.1 h) fun vs => stabRefl)
                    (fun v => bbSeq (famA h).2.1 ((famStab g).2.1 h) (bi h)
                      (fun vs => paOk _) (fun vs => stabRefl) (fun vs => bbOk _))
                · simp only [if_neg h2]
                  exact bbVac
    · intro h
      cases h with
      | zero => exact bbVac
      | succ h =>
        refine bbSeq paReadText stabRefl bbReadText (fun t => ?_) (fun t => ?_) (fun t => ?_)
        · by_cases ht : t ≠ []
          · simp only [if_pos ht]
            exact paFail _
          · simp only [if_neg ht]
            refine paSeq paReadTag fun tag => ?_
            by_cases h1 : tag = sl "/struct"
            · simp only [if_pos h1]
              exact paOk _
            · simp only [if_neg h1]
              by_cases h2 : tag = sl "member"
              · simp only [if_pos h2]
                exact paSeq (paExpect _) fun _ => paSeq paReadText fun nm =>
                  paSeq (paExpect _) fun _ => paSeq (paExpect _) fun _ =>
                    paSeq (famA h).1 fun v => paSeq (paExpect _) fun _ =>
                      paSeq (famA h).2.2.1 fun ms => paOk _
              · simp only [if_neg h2]
                exact paFail _
        · by_cases ht : t ≠ []
          · simp only [if_pos ht]
            exact stabVac
          · simp only [if_neg ht]
            refine stabSeq stabRefl fun tag => ?_
            by_cases h1 : tag = sl "/struct"
            · simp only [if_pos h1]
              exact stabRefl
            · simp only [if_neg h1]
              by_cases h2 : tag = sl "member"
              · simp only [if_pos h2]
                exact stabSeq stabRefl fun _ => stabSeq stabRefl fun nm =>
                  stabSeq stabRefl fun _ => stabSeq stabRefl fun _ =>
                    stabSeq ((famStab g).1 h) fun v => stabSeq stabRefl fun _ =>
                      stabSeq ((famStab g).2.2.1 h) fun ms => stabRefl
              · simp only [if_neg h2]
                exact stabVac
        · by_cases ht : t ≠ []
          · simp only [if_pos ht]
            exact bbVac
          · simp only [if_neg ht]
            refine bbSeq paReadTag stabRefl bbReadTag (fun tag => ?_) (fun tag => ?_) (fun tag => ?_)
            · by_cases h1 : tag = sl "/struct"
              · simp only [if_pos h1]
                exact paOk _
              · simp only [if_neg h1]
                by_cases h2 : tag = sl "member"
                · simp only [if_pos h2]
                  exact paSeq (paExpect _) fun _ => paSeq paReadText fun nm =>
                    paSeq (paExpect _) fun _ => paSeq (paExpect _) fun _ =>
                      paSeq (famA h).1 fun v => paSeq (paExpect _) fun _ =>
                        paSeq (famA h).2.2.1 fun ms => paOk _
                · simp only [if_neg h2]
                  exact paFail _
            · by_cases h1 : tag = sl "/struct"
              · simp only [if_pos h1]
                exact stabRefl
              · simp only [if_neg h1]
                by_cases h2 : tag = sl "member"
                · simp only [if_pos h2]
                  exact stabSeq stabRefl fun _ => stabSeq stabRefl fun nm =>
                    stabSeq stabRefl fun _ => stabSeq stabRefl fun _ =>
                      stabSeq ((famStab g).1 h) fun v => stabSeq stabRefl fun _ =>
                        stabSeq ((famStab g).2.2.1 h) fun ms => stabRefl
                · simp only [if_neg h2]
                  exact stabVac
            · by_cases h1 : tag = sl "/struct"
              · simp only [if_pos h1]
                exact bbOk _
              · simp only [if_neg h1]
                by_cases h2 : tag = sl "member"
                · simp only [if_pos h2]
                  exact bbSeq (paExpect _) stabRefl (bbExpect _)
                    (fun _ => paSeq paReadText fun nm =>
                      paSeq (paExpect _) fun _ => paSeq (paExpect _) fun _ =>
                        paSeq (famA h).1 fun v => paSeq (paExpect _) fun _ =>
                          paSeq (famA h).2.2.1 fun ms => paOk _)
                    (fun _ => stabSeq stabRefl fun nm =>
                      stabSeq stabRefl fun _ => stabSeq stabRefl fun _ =>
                        stabSeq ((famStab g).1 h) fun v => stabSeq stabRefl fun _ =>
                          stabSeq ((famStab g).2.2.1 h) fun ms => stabRefl)
                    (fun _ => bbSeq paReadText stabRefl bbReadText
                      (fun nm => paSeq (paExpect _) fun _ => paSeq (paExpect _) fun _ =>
                        paSeq (famA h).1 fun v => paSeq (paExpect _) fun _ =>
                          paSeq (famA h).2.2.1 fun ms => paOk _)
                      (fun nm => stabSeq stabRefl fun _ => stabSeq stabRefl fun _ =>
                        stabSeq ((famStab g).1 h) fun v => stabSeq stabRefl fun _ =>
                          stabSeq ((famStab g).2.2.1 h) fun ms => stabRefl)
                      (fun nm => bbSeq (paExpect _) stabRefl (bbExpect _)
                        (fun _ => paSeq (paExpect _) fun _ =>
                          paSeq (famA h).1 fun v => paSeq (paExpect _) fun _ =>
                            paSeq (famA h).2.2.1 fun ms => paOk _)
                        (fun _ => stabSeq stabRefl fun _ =>
                          stabSeq ((famStab g).1 h) fun v => stabSeq stabRefl fun _ =>
                            stabSeq ((famStab g).2.2.1 h) fun ms => stabRefl)
                        (fun _ => bbSeq (paExpect _) stabRefl (bbExpect _)
                          (fun _ => paSeq (famA h).1 fun v => paSeq (paExpect _) fun _ =>
                            paSeq (famA h).2.2.1 fun ms => paOk _)
                          (fun _ => stabSeq ((famStab g).1 h) fun v => stabSeq stabRefl fun _ =>
                            stabSeq ((famStab g).2.2.1 h) fun ms => stabRefl)
                          (fun _ => bbSeq (famA h).1 ((famStab g).1 h) (bv h)
                            (fun v => paSeq (paExpect _) fun _ =>
                              paSeq (famA h).2.2.1 fun ms => paOk _)
                            (fun v => stabSeq stabRefl fun _ =>
                              stabSeq ((famStab g).2.2.1 h) fun ms => stabRefl)
                            (fun v => bbSeq (paExpect _) stabRefl (bbExpect _)
                              (fun _ => paSeq (famA h).2.2.1 fun ms => paOk _)
                              (fun _ => stabSeq ((famStab g).2.2.1 h) fun ms => stabRefl)
                              (fun _ => bbSeq (famA h).2.2.1 ((famStab g).2.2.1 h) (bm h)
                                (fun ms => paOk _) (fun ms => stabRefl)
                                (fun ms => bbOk _)))))))
                · simp only [if_neg h2]
                  exact bbVac
    · intro h
      cases h with
      | zero => exact bbVac
      | succ h =>
        refine bbSeq paReadText stabRefl bbReadText (fun t => ?_) (fun t => ?_) (fun t => ?_)
        · by_cases ht : t ≠ []
          · simp only [if_pos ht]
            exact paFail _
          · simp only [if_neg ht]
            refine paSeq paReadTag fun tag => ?_
            by_cases h1 : tag = sl "/params"
            · simp only [if_pos h1]
              exact paOk _
            · simp only [if_neg h1]
              by_cases h2 : tag = sl "param"
              · simp only [if_pos h2]
                exact paSeq (paExpect _) fun _ => paSeq (famA h).1 fun v =>
                  paSeq (paExpect _) fun _ => paSeq (famA h).2.2.2 fun vs => paOk _
              · simp only [if_neg h2]
                exact paFail _
        · by_cases ht : t ≠ []
          · simp only [if_pos ht]
            exact stabVac
          · simp only [if_neg ht]
            refine stabSeq stabRefl fun tag => ?_
            by_cases h1 : tag = sl "/params"
            · simp only [if_pos h1]
              exact stabRefl
            · simp only [if_neg h1]
              by_cases h2 : tag = sl "param"
              · simp only [if_pos h2]
                exact stabSeq stabRefl fun _ => stabSeq ((famStab g).1 h) fun v =>
                  stabSeq stabRefl fun _ => stabSeq ((famStab g).2.2.2 h) fun vs => stabRefl
              · simp only [if_neg h2]
                exact stabVac
        · by_cases ht : t ≠ []
          · simp only [if_pos ht]
            exact bbVac
          · simp only [if_neg ht]
            refine bbSeq paReadTag stabRefl bbReadTag (fun tag => ?_) (fun tag => ?_) (fun tag => ?_)
            · by_cases h1 : tag = sl "/params"
              · simp only [if_pos h1]
                exact paOk _
              · simp only [if_neg h1]
                by_cases h2 : tag = sl "param"
                · simp only [if_pos h2]
                  exact paSeq (paExpect _) fun _ => paSeq (famA h).1 fun v =>
                    paSeq (paExpect _) fun _ => paSeq (famA h).2.2.2 fun vs => paOk _
                · simp only [if_neg h2]
                  exact paFail _
            · by_cases h1 : tag = sl "/params"
              · simp only [if_pos h1]
                exact stabRefl
              · simp only [if_neg h1]
                by_cases h2 : tag = sl "param"
                · simp only [if_pos h2]
                  exact stabSeq stabRefl fun _ => stabSeq ((famStab g).1 h) fun v =>
                    stabSeq stabRefl fun _ => stabSeq ((famStab g).2.2.2 h) fun vs => stabRefl
                · simp only [if_neg h2]
                  exact stabVac
            · by_cases h1 : tag = sl "/params"
              · simp only [if_pos h1]
                exact bbOk _
              · simp only [if_neg h1]
                by_cases h2 : tag = sl "param"
                · simp only [if_pos h2]
                  exact bbSeq (paExpect _) stabRefl (bbExpect _)
                    (fun _ => paSeq (famA h).1 fun v =>
                      paSeq (paExpect _) fun _ => paSeq (famA h).2.2.2 fun vs => paOk _)
                    (fun _ => stabSeq ((famStab g).1 h) fun v =>
                      stabSeq stabRefl fun _ => stabSeq ((famStab g).2.2.2 h) fun vs => stabRefl)
                    (fun _ => bbSeq (famA h).1 ((famStab g).1 h) (bv h)
                      (fun v => paSeq (paExpect _) fun _ => paSeq (famA h).2.2.2 fun vs => paOk _)
                      (fun v => stabSeq stabRefl fun _ => stabSeq ((famStab g).2.2.2 h) fun vs => stabRefl)
                      (fun v => bbSeq (paExpect _) stabRefl (bbExpect _)
                        (fun _ => paSeq (famA h).2.2.2 fun vs => paOk _)
                        (fun _ => stabSeq ((famStab g).2.2.2 h) fun vs => stabRefl)
                        (fun _ => bbSeq (famA h).2.2.2 ((famStab g).2.2.2 h) (bp h)
                          (fun vs => paOk _) (fun vs => stabRefl) (fun vs => bbOk _))))
                · simp only [if_neg h2]
                  exact bbVac

theorem paParamsTail (f : Nat) (X : List Char) (D : List Value → DocOut) :
    PA (pseq (pParams f) fun vs => pseq (expectP X) fun _ => pok (D vs)) :=
  paSeq (famA f).2.2.2 fun vs => paSeq (paExpect _) fun _ => paOk _

theorem stabParamsTail (f g : Nat) (X : List Char) (D : List Value → DocOut) :
    PStab (pseq (pParams f) fun vs => pseq (expectP X) fun _ => pok (D vs))
      (pseq (pParams g) fun vs => pseq (expectP X) fun _ => pok (D vs)) :=
  stabSeq ((famStab g).2.2.2 f) fun vs => stabRefl

theorem bbParamsTail (f g : Nat) (X : List Char) (D : List Value → DocOut) :
    PBb (pseq (pParams f) fun vs => pseq (expectP X) fun _ => pok (D vs))
      (pseq (pParams g) fun vs => pseq (expectP X) fun _ => pok (D vs)) :=
  bbSeq (famA f).2.2.2 ((famStab g).2.2.2 f) ((famBb g).2.2.2 f)
    (fun vs => paSeq (paExpect _) fun _ => paOk _)
    (fun vs => stabRefl)
    (fun vs => bbSeq (paExpect _) stabRefl (bbExpect _) (fun _ => paOk _)
      (fun _ => stabRefl) (fun _ => bbOk _))

theorem paFaultTail (f : Nat) : PA (pseq (expectP (sl "<value>")) fun _ =>
    pseq (pValueBody f) fun v => pseq (expectP (sl "</fault>")) fun _ =>
      pseq (expectP (sl "</methodResponse>")) fun _ => pok (DocOut.flt v)) :=
  paSeq (paExpect _) fun _ => paSeq (famA f).1 fun v =>
    paSeq (paExpect _) fun _ => paSeq (paExpect _) fun _ => paOk _

theorem stabFaultTail (f g : Nat) : PStab
    (pseq (expectP (sl "<value>")) fun _ => pseq (pValueBody f) fun v =>
      pseq (expectP (sl "</fault>")) fun _ =>
        pseq (expectP (sl "</methodResponse>")) fun _ => pok (DocOut.flt v))
    (pseq (expectP (sl "<value>")) fun _ => pseq (pValueBody g) fun v =>
      pseq (expectP (sl "</fault>")) fun _ =>
        pseq (expectP (sl "</methodResponse>")) fun _ => pok (DocOut.flt v)) :=
  stabSeq stabRefl fun _ => stabSeq ((famStab g).1 f) fun v => stabRefl

theorem bbFaultTail (f g : Nat) : PBb
    (pseq (expectP (sl "<value>")) fun _ => pseq (pValueBody f) fun v =>
      pseq (expectP (sl "</fault>")) fun _ =>
        pseq (expectP (sl "</methodResponse>")) fun _ => pok (DocOut.flt v))
    (pseq (expectP (sl "<value>")) fun _ => pseq (pValueBody g) fun v =>
      pseq (expectP (sl "</fault>")) fun _ =>
        pseq (expectP (sl "</methodResponse>")) fun _ => pok (DocOut.flt v)) :=
  bbSeq (paExpect _) stabRefl (bbExpect _)
    (fun _ => paSeq (famA f).1 fun v => paSeq (paExpect _) fun _ =>
      paSeq (paExpect _) fun _ => paOk _)
    (fun _ => stabSeq ((famStab g).1 f) fun v => stabRefl)
    (fun _ => bbSeq (famA f).1 ((famStab g).1 f) ((famBb g).1 f)
      (fun v => paSeq (paExpect _) fun _ => paSeq (paExpect _) fun _ => paOk _)
      (fun v => stabRefl)
      (fun v => bbSeq (paExpect _) stabRefl (bbExpect _)
        (fun _ => paSeq (paExpect _) fun _ => paOk _)
        (fun _ => stabRefl)
        (fun _ => bbSeq (paExpect _) stabRefl (bbExpect _) (fun _ => paOk _)
          (fun _ => stabRefl) (fun _ => bbOk _))))

theorem pdocA (f : Nat) : PA (pDocF f) := by
  refine paSeq (paExpect _) fun _ => paSeq paReadText fun t => ?_
  by_cases ht : t ≠ []
  · simp only [if_pos ht]
    exact paFail _
  · simp only [if_neg ht]
    refine paSeq paReadTag fun tag => ?_
    by_cases h1 : tag = sl "methodCall"
    · simp only [if_pos h1]
      refine paSeq (paExpect _) fun _ => paSeq paReadText fun nm =>
        paSeq (paExpect _) fun _ => paSeq paReadText fun t2 => ?_
      by_cases ht2 : t2 ≠ []
      · simp only [if_pos ht2]
        exact paFail _
      · simp only [if_neg ht2]
        refine paSeq paReadTag fun tg2 => ?_
        by_cases h2 : tg2 = sl "params"
        · simp only [if_pos h2]
          exact paParamsTail f _ _
        · simp only [if_neg h2]
          exact paFail _
    · simp only [if_neg h1]
      by_cases h2 : tag = sl "methodResponse"
      · simp only [if_pos h2]
        refine paSeq paReadText fun t2 => ?_
        by_cases ht2 : t2 ≠ []
        · simp only [if_pos ht2]
          exact paFail _
        · simp only [if_neg ht2]
          refine paSeq paReadTag fun tg2 => ?_
          by_cases h3 : tg2 = sl "params"
          · simp only [if_pos h3]
            exact paParamsTail f _ _
          · simp only [if_neg h3]
            by_cases h4 : tg2 = sl "fault"
            · simp only [if_pos h4]
              exact paFaultTail f
            · simp only [if_neg h4]
              exact paFail _
      · simp only [if_neg h2]
        exact paFail _

theorem pdocBb (f g : Nat) : PBb (pDocF f) (pDocF g) := by
  refine bbSeq (paExpect _) stabRefl (bbExpect _) (fun u1 => ?_) (fun u1 => ?_) (fun u1 => ?_)
  · exact paSeq paReadText fun t => by
      by_cases ht : t ≠ []
      · simp only [if_pos ht]
        exact paFail _
      · simp only [if_neg ht]
        refine paSeq paReadTag fun tag => ?_
        by_cases h1 : tag = sl "methodCall"
        · simp only [if_pos h1]
          refine paSeq (paExpect _) fun _ => paSeq paReadText fun nm =>
            paSeq (paExpect _) fun _ => paSeq paReadText fun t2 => ?_
          by_cases ht2 : t2 ≠ []
          · simp only [if_pos ht2]
            exact paFail _
          · simp only [if_neg ht2]
            refine paSeq paReadTag fun tg2 => ?_
            by_cases h2 : tg2 = sl "params"
            · simp only [if_pos h2]
              exact paParamsTail f _ _
            · simp only [if_neg h2]
              exact paFail _
        · simp only [if_neg h1]
          by_cases h2 : tag = sl "methodResponse"
          · simp only [if_pos h2]
            refine paSeq paReadText fun t2 => ?_
            by_cases ht2 : t2 ≠ []
            · simp only [if_pos ht2]
              exact paFail _
            · simp only [if_neg ht2]
              refine paSeq paReadTag fun tg2 => ?_
              by_cases h3 : tg2 = sl "params"
              · simp only [if_pos h3]
                exact paParamsTail f _ _
              · simp only [if_neg h3]
                by_cases h4 : tg2 = sl "fault"
                · simp only [if_pos h4]
                  exact paFaultTail f
                · simp only [if_neg h4]
                  exact paFail _
          · simp only [if_neg h2]
            exact paFail _
  · exact stabSeq stabRefl fun t => by
      by_cases ht : t ≠ []
      · simp only [if_pos ht]
        exact stabVac
      · simp only [if_neg ht]
        refine stabSeq stabRefl fun tag => ?_
        by_cases h1 : tag = sl "methodCall"
        · simp only [if_pos h1]
          refine stabSeq stabRefl fun _ => stabSeq stabRefl fun nm =>
            stabSeq stabRefl fun _ => stabSeq stabRefl fun t2 => ?_
          by_cases ht2 : t2 ≠ []
          · simp only [if_pos ht2]
            exact stabVac
          · simp only [if_neg ht2]
            refine stabSeq stabRefl fun tg2 => ?_
            by_cases h2 : tg2 = sl "params"
            · simp only [if_pos h2]
              exact stabParamsTail f g _ _
            · simp only [if_neg h2]
              exact stabVac
        · simp only [if_neg h1]
          by_cases h2 : tag = sl "methodResponse"
          · simp only [if_pos h2]
            refine stabSeq stabRefl fun t2 => ?_
            by_cases ht2 : t2 ≠ []
            · simp only [if_pos ht2]
              exact stabVac
            · simp only [if_neg ht2]
              refine stabSeq stabRefl fun tg2 => ?_
              by_cases h3 : tg2 = sl "params"
              · simp only [if_pos h3]
                exact stabParamsTail f g _ _
              · simp only [if_neg h3]
                by_cases h4 : tg2 = sl "fault"
                · simp only [if_pos h4]
                  exact stabFaultTail f g
                · simp only [if_neg h4]
                  exact stabVac
          · simp only [if_neg h2]
            exact stabVac
  · exact bbSeq paReadText stabRefl bbReadText
      (fun t => by
        by_cases ht : t ≠ []
        · simp only [if_pos ht]
          exact paFail _
        · simp only [if_neg ht]
          refine paSeq paReadTag fun tag => ?_
          by_cases h1 : tag = sl "methodCall"
          · simp only [if_pos h1]
            refine paSeq (paExpect _) fun _ => paSeq paReadText fun nm =>
              paSeq (paExpect _) fun _ => paSeq paReadText fun t2 => ?_
            by_cases ht2 : t2 ≠ []
            · simp only [if_pos ht2]
              exact paFail _
            · simp only [if_neg ht2]
              refine paSeq paReadTag fun tg2 => ?_
              by_cases h2 : tg2 = sl "params"
              · simp only [if_pos h2]
                exact paParamsTail f _ _
              · simp only [if_neg h2]
                exact paFail _
          · simp only [if_neg h1]
            by_cases h2 : tag = sl "methodResponse"
            · simp only [if_pos h2]
              refine paSeq paReadText fun t2 => ?_
              by_cases ht2 : t2 ≠ []
              · simp only [if_pos ht2]
                exact paFail _
              · simp only [if_neg ht2]
                refine paSeq paReadTag fun tg2 => ?_
                by_cases h3 : tg2 = sl "params"
                · simp only [if_pos h3]
                  exact paParamsTail f _ _
                · simp only [if_neg h3]
                  by_cases h4 : tg2 = sl "fault"
                  · simp only [if_pos h4]
                    exact paFaultTail f
                  · simp only [if_neg h4]
                    exact paFail _
            · simp only [if_neg h2]
              exact paFail _)
      (fun t => by
        by_cases ht : t ≠ []
        · simp only [if_pos ht]
          exact stabVac
        · simp only [if_neg ht]
          refine stabSeq stabRefl fun tag => ?_
          by_cases h1 : tag = sl "methodCall"
          · simp only [if_pos h1]
            refine stabSeq stabRefl fun _ => stabSeq stabRefl fun nm =>
              stabSeq stabRefl fun _ => stabSeq stabRefl fun t2 => ?_
            by_cases ht2 : t2 ≠ []
            · simp only [if_pos ht2]
              exact stabVac
            · simp only [if_neg ht2]
              refine stabSeq stabRefl fun tg2 => ?_
              by_cases h2 : tg2 = sl "params"
              · simp only [if_pos h2]
                exact stabParamsTail f g _ _
              · simp only [if_neg h2]
                exact stabVac
          · simp only [if_neg h1]
            by_cases h2 : tag = sl "methodResponse"
            · simp only [if_pos h2]
              refine stabSeq stabRefl fun t2 => ?_
              by_cases ht2 : t2 ≠ []
              · simp only [if_pos ht2]
                exact stabVac
              · simp only [if_neg ht2]
                refine stabSeq stabRefl fun tg2 => ?_
                by_cases h3 : tg2 = sl "params"
                · simp only [if_pos h3]
                  exact stabParamsTail f g _ _
                · simp only [if_neg h3]
                  by_cases h4 : tg2 = sl "fault"
                  · simp only [if_pos h4]
                    exact stabFaultTail f g
                  · simp only [if_neg h4]
                    exact stabVac
            · simp only [if_neg h2]
              exact stabVac)
      (fun t => by
        by_cases ht : t ≠ []
        · simp only [if_pos ht]
          exact bbVac
        · simp only [if_neg ht]
          refine bbSeq paReadTag stabRefl bbReadTag (fun tag => ?_) (fun tag => ?_) (fun tag => ?_)
          · by_cases h1 : tag = sl "methodCall"
            · simp only [if_pos h1]
              refine paSeq (paExpect _) fun _ => paSeq paReadText fun nm =>
                paSeq (paExpect _) fun _ => paSeq paReadText fun t2 => ?_
              by_cases ht2 : t2 ≠ []
              · simp only [if_pos ht2]
                exact paFail _
              · simp only [if_neg ht2]
                refine paSeq paReadTag fun tg2 => ?_
                by_cases h2 : tg2 = sl "params"
                · simp only [if_pos h2]
                  exact paParamsTail f _ _
                · simp only [if_neg h2]
                  exact paFail _
            · simp only [if_neg h1]
              by_cases h2 : tag = sl "methodResponse"
              · simp only [if_pos h2]
                refine paSeq paReadText fun t2 => ?_
                by_cases ht2 : t2 ≠ []
                · simp only [if_pos ht2]
                  exact paFail _
                · simp only [if_neg ht2]
                  refine paSeq paReadTag fun tg2 => ?_
                  by_cases h3 : tg2 = sl "params"
                  · simp only [if_pos h3]
                    exact paParamsTail f _ _
                  · simp only [if_neg h3]
                    by_cases h4 : tg2 = sl "fault"
                    · simp only [if_pos h4]
                      exact paFaultTail f
                    · simp only [if_neg h4]
                      exact paFail _
              · simp only [if_neg h2]
                exact paFail _
          · by_cases h1 : tag = sl "methodCall"
            · simp only [if_pos h1]
              refine stabSeq stabRefl fun _ => stabSeq stabRefl fun nm =>
                stabSeq stabRefl fun _ => stabSeq stabRefl fun t2 => ?_
              by_cases ht2 : t2 ≠ []
              · simp only [if_pos ht2]
                exact stabVac
              · simp only [if_neg ht2]
                refine stabSeq stabRefl fun tg2 => ?_
                by_cases h2 : tg2 = sl "params"
                · simp only [if_pos h2]
                  exact stabParamsTail f g _ _
                · simp only [if_neg h2]
                  exact stabVac
            · simp only [if_neg h1]
              by_cases h2 : tag = sl "methodResponse"
              · simp only [if_pos h2]
                refine stabSeq stabRefl fun t2 => ?_
                by_cases ht2 : t2 ≠ []
                · simp only [if_pos ht2]
                  exact stabVac
                · simp only [if_neg ht2]
                  refine stabSeq stabRefl fun tg2 => ?_
                  by_cases h3 : tg2 = sl "params"
                  · simp only [if_pos h3]
                    exact stabParamsTail f g _ _
                  · simp only [if_neg h3]
                    by_cases h4 : tg2 = sl "fault"
                    · simp only [if_pos h4]
                      exact stabFaultTail f g
                    · simp only [if_neg h4]
                      exact stabVac
              · simp only [if_neg h2]
                exact stabVac
          · by_cases h1 : tag = sl "methodCall"
            · simp only [if_pos h1]
              refine bbSeq (paExpect _) stabRefl (bbExpect _) (fun _ => ?_) (fun _ => ?_) (fun _ => ?_)
              · refine paSeq paReadText fun nm => paSeq (paExpect _) fun _ =>
                  paSeq paReadText fun t2 => ?_
                by_cases ht2 : t2 ≠ []
                · simp only [if_pos ht2]
                  exact paFail _
                · simp only [if_neg ht2]
                  refine paSeq paReadTag fun tg2 => ?_
                  by_cases h2 : tg2 = sl "params"
                  · simp only [if_pos h2]
                    exact paParamsTail f _ _
                  · simp only [if_neg h2]
                    exact paFail _
              · refine stabSeq stabRefl fun nm => stabSeq stabRefl fun _ =>
                  stabSeq stabRefl fun t2 => ?_
                by_cases ht2 : t2 ≠ []
                · simp only [if_pos ht2]
                  exact stabVac
                · simp only [if_neg ht2]
                  refine stabSeq stabRefl fun tg2 => ?_
                  by_cases h2 : tg2 = sl "params"
                  · simp only [if_pos h2]
                    exact stabParamsTail f g _ _
                  · simp only [if_neg h2]
                    exact stabVac
              · refine bbSeq paReadText stabRefl bbReadText (fun nm => ?_) (fun nm => ?_) (fun nm => ?_)
                · refine paSeq (paExpect _) fun _ => paSeq paReadText fun t2 => ?_
                  by_cases ht2 : t2 ≠ []
                  · simp only [if_pos ht2]
                    exact paFail _
                  · simp only [if_neg ht2]
                    refine paSeq paReadTag fun tg2 => ?_
                    by_cases h2 : tg2 = sl "params"
                    · simp only [if_pos h2]
                      exact paParamsTail f _ _
                    · simp only [if_neg h2]
                      exact paFail _
                · refine stabSeq stabRefl fun _ => stabSeq stabRefl fun t2 => ?_
                  by_cases ht2 : t2 ≠ []
                  · simp only [if_pos ht2]
                    exact stabVac
                  · simp only [if_neg ht2]
                    refine stabSeq stabRefl fun tg2 => ?_
                    by_cases h2 : tg2 = sl "params"
                    · simp only [if_pos h2]
                      exact stabParamsTail f g _ _
                    · simp only [if_neg h2]
                      exact stabVac
                · refine bbSeq (paExpect _) stabRefl (bbExpect _) (fun _ => ?_) (fun _ => ?_) (fun _ => ?_)
                  · refine paSeq paReadText fun t2 => ?_
                    by_cases ht2 : t2 ≠ []
                    · simp only [if_pos ht2]
                      exact paFail _
                    · simp only [if_neg ht2]
                      refine paSeq paReadTag fun tg2 => ?_
                      by_cases h2 : tg2 = sl "params"
                      · simp only [if_pos h2]
                        exact paParamsTail f _ _
                      · simp only [if_neg h2]
                        exact paFail _
                  · refine stabSeq stabRefl fun t2 => ?_
                    by_cases ht2 : t2 ≠ []
                    · simp only [if_pos ht2]
                      exact stabVac
                    · simp only [if_neg ht2]
                      refine stabSeq stabRefl fun tg2 => ?_
                      by_cases h2 : tg2 = sl "params"
                      · simp only [if_pos h2]
                        exact stabParamsTail f g _ _
                      · simp only [if_neg h2]
                        exact stabVac
                  · refine bbSeq paReadText stabRefl bbReadText (fun t2 => ?_) (fun t2 => ?_) (fun t2 => ?_)
                    · by_cases ht2 : t2 ≠ []
                      · simp only [if_pos ht2]
                        exact paFail _
                      · simp only [if_neg ht2]
                        refine paSeq paReadTag fun tg2 => ?_
                        by_cases h2 : tg2 = sl "params"
                        · simp only [if_pos h2]
                          exact paParamsTail f _ _
                        · simp only [if_neg h2]
                          exact paFail _
                    · by_cases ht2 : t2 ≠ []
                      · simp only [if_pos ht2]
                        exact stabVac
                      · simp only [if_neg ht2]
                        refine stabSeq stabRefl fun tg2 => ?_
                        by_cases h2 : tg2 = sl "params"
                        · simp only [if_pos h2]
                          exact stabParamsTail f g _ _
                        · simp only [if_neg h2]
                          exact stabVac
                    · by_cases ht2 : t2 ≠ []
                      · simp only [if_pos ht2]
                        exact bbVac
                      · simp only [if_neg ht2]
                        refine bbSeq paReadTag stabRefl bbReadTag (fun tg2 => ?_) (fun tg2 => ?_) (fun tg2 => ?_)
                        · by_cases h2 : tg2 = sl "params"
                          · simp only [if_pos h2]
                            exact paParamsTail f _ _
                          · simp only [if_neg h2]
                            exact paFail _
                        · by_cases h2 : tg2 = sl "params"
                          · simp only [if_pos h2]
                            exact stabParamsTail f g _ _
                          · simp only [if_neg h2]
                            exact stabVac
                        · by_cases h2 : tg2 = sl "params"
                          · simp only [if_pos h2]
                            exact bbParamsTail f g _ _
                          · simp only [if_neg h2]
                            exact bbVac
            · simp only [if_neg h1]
              by_cases h2 : tag = sl "methodResponse"
              · simp only [if_pos h2]
                refine bbSeq paReadText stabRefl bbReadText (fun t2 => ?_) (fun t2 => ?_) (fun t2 => ?_)
                · by_cases ht2 : t2 ≠ []
                  · simp only [if_pos ht2]
                    exact paFail _
                  · simp only [if_neg ht2]
                    refine paSeq paReadTag fun tg2 => ?_
                    by_cases h3 : tg2 = sl "params"
                    · simp only [if_pos h3]
                      exact paParamsTail f _ _
                    · simp only [if_neg h3]
                      by_cases h4 : tg2 = sl "fault"
                      · simp only [if_pos h4]
                        exact paFaultTail f
                      · simp only [if_neg h4]
                        exact paFail _
                · by_cases ht2 : t2 ≠ []
                  · simp only [if_pos ht2]
                    exact stabVac
                  · simp only [if_neg ht2]
                    refine stabSeq stabRefl fun tg2 => ?_
                    by_cases h3 : tg2 = sl "params"
                    · simp only [if_pos h3]
                      exact stabParamsTail f g _ _
                    · simp only [if_neg h3]
                      by_cases h4 : tg2 = sl "fault"
                      · simp only [if_pos h4]
                        exact stabFaultTail f g
                      · simp only [if_neg h4]
                        exact stabVac
                · by_cases ht2 : t2 ≠ []
                  · simp only [if_pos ht2]
                    exact bbVac
                  · simp only [if_neg ht2]
                    refine bbSeq paReadTag stabRefl bbReadTag (fun tg2 => ?_) (fun tg2 => ?_) (fun tg2 => ?_)
                    · by_cases h3 : tg2 = sl "params"
                      · simp only [if_pos h3]
                        exact paParamsTail f _ _
                      · simp only [if_neg h3]
                        by_cases h4 : tg2 = sl "fault"
                        · simp only [if_pos h4]
                          exact paFaultTail f
                        · simp only [if_neg h4]
                          exact paFail _
                    · by_cases h3 : tg2 = sl "params"
                      · simp only [if_pos h3]
                        exact stabParamsTail f g _ _
                      · simp only [if_neg h3]
                        by_cases h4 : tg2 = sl "fault"
                        · simp only [if_pos h4]
                          exact stabFaultTail f g
                        · simp only [if_neg h4]
                          exact stabVac
                    · by_cases h3 : tg2 = sl "params"
                      · simp only [if_pos h3]
                        exact bbParamsTail f g _ _
                      · simp only [if_neg h3]
                        by_cases h4 : tg2 = sl "fault"
                        · simp only [if_pos h4]
                          exact bbFaultTail f g
                        · simp only [if_neg h4]
                          exact bbVac
              · simp only [if_neg h2]
                exact bbVac)

theorem decode_prefix_incomplete (d u w : List Char) (hduw : d = u ++ w) (hw : w ≠ [])
    (hval : (∃ v, decode d = .success v) ∨ (∃ c m, decode d = .fault c m)) :
    decode u = .failure .incomplete := by
  cases hp : pDocF d.length d with
  | bad e =>
    exfalso
    rcases hval with ⟨v, hv⟩ | ⟨c, m, hcm⟩
    · simp [decode, hp] at hv
    · simp [decode, hp] at hcm
  | ok out rest =>
    cases rest with
    | cons x xs =>
      exfalso
      rcases hval with ⟨v, hv⟩ | ⟨c, m, hcm⟩
      · simp [decode, hp] at hv
      · simp [decode, hp] at hcm
    | nil =>
      have hrun : pDocF d.length ((u ++ w) ++ []) = .ok out [] := by
        rw [List.append_nil, ← hduw]
        exact hp
      have hu := pdocBb d.length u.length (u ++ w) [] out hrun u w rfl hw
      simp [decode, hu]

theorem erDetN : ∀ n : Nat,
    (∀ v, vsize v ≤ n → ∀ o1 o2, ERv v o1 → ERv v o2 → o1 = o2) ∧
    (∀ xs, isize xs ≤ n → ∀ o1 o2, ERl xs o1 → ERl xs o2 → o1 = o2) ∧
    (∀ ms, msize ms ≤ n → ∀ o1 o2, ERm ms o1 → ERm ms o2 → o1 = o2) := by
  intro n
  induction n with
  | zero =>
    refine ⟨?_, ?_, ?_⟩
    · intro v hv
      exact absurd hv (by have := vsize_pos v; omega)
    · intro xs hxs o1 o2 h1 h2
      cases xs with
      | nil =>
        cases h1
        cases h2
        rfl
      | cons x xs =>
        exfalso
        simp [isize] at hxs
    · intro ms hms o1 o2 h1 h2
      cases ms with
      | nil =>
        cases h1
        cases h2
        rfl
      | cons p ms =>
        obtain ⟨nm, v⟩ := p
        exfalso
        simp [msize] at hms
  | succ n ih =>
    have hA : ∀ v, vsize v ≤ n + 1 → ∀ o1 o2, ERv v o1 → ERv v o2 → o1 = o2 := by
      intro v hv o1 o2 h1 h2
      cases h1 with
      | int m =>
        cases h2
        rfl
      | bool b =>
        cases h2
        rfl
      | str s =>
        cases h2
        rfl
      | double ip fr =>
        cases h2
        rfl
      | dateTime y mo d h mi s =>
        cases h2
        rfl
      | base64 bs =>
        cases h2
        rfl
      | nil =>
        cases h2
        rfl
      | array xs out hL =>
        cases h2
        rename_i out2 hL2
        have hxs : isize xs ≤ n := by
          simp [vsize] at hv
          omega
        rw [ih.2.1 xs hxs out out2 hL hL2]
      | strct ms out hM =>
        cases h2
        rename_i out2 hM2
        have hms : msize ms ≤ n := by
          simp [vsize] at hv
          omega
        rw [ih.2.2 ms hms out out2 hM hM2]
    have hB : ∀ xs, isize xs ≤ n + 1 → ∀ o1 o2, ERl xs o1 → ERl xs o2 → o1 = o2 := by
      intro xs hxs o1 o2 h1 h2
      cases h1 with
      | nil =>
        cases h2
        rfl
      | cons v out vs outs hv hvs =>
        cases h2
        rename_i out2 outs2 hv2 hvs2
        have hb1 : vsize v ≤ n + 1 := by
          simp [isize] at hxs
          omega
        have hb2 : isize vs ≤ n := by
          simp [isize] at hxs
          have := vsize_pos v
          omega
        rw [hA v hb1 out out2 hv hv2, ih.2.1 vs hb2 outs outs2 hvs hvs2]
    have hC : ∀ ms, msize ms ≤ n + 1 → ∀ o1 o2, ERm ms o1 → ERm ms o2 → o1 = o2 := by
      intro ms hms o1 o2 h1 h2
      cases h1 with
      | nil =>
        cases h2
        rfl
      | cons nm v out ms2 outs hv hvs =>
        cases h2
        rename_i out2 outs2 hv2 hvs2
        have hb1 : vsize v ≤ n + 1 := by
          simp [msize] at hms
          omega
        have hb2 : msize ms2 ≤ n := by
          simp [msize] at hms
          have := vsize_pos v
          omega
        rw [hA v hb1 out out2 hv hv2, ih.2.2 ms2 hb2 outs outs2 hvs hvs2]
    exact ⟨hA, hB, hC⟩

theorem erDetV (v : Value) (o1 o2 : List Char) (h1 : ERv v o1) (h2 : ERv v o2) : o1 = o2 :=
  (erDetN (vsize v)).1 v le_rfl o1 o2 h1 h2

theorem erDetP : ∀ args o1 o2, ERp args o1 → ERp args o2 → o1 = o2 := by
  intro args o1 o2 h1 h2
  induction h1 generalizing o2 with
  | nil =>
    cases h2
    rfl
  | cons v out vs outs hv hvs ih =>
    cases h2
    rename_i out2 outs2 hv2 hvs2
    rw [erDetV v out out2 hv hv2, ih outs2 hvs2]

theorem erAdqN : ∀ n : Nat,
    (∀ v, vsize v ≤ n → ERv v (printBody v)) ∧
    (∀ xs, isize xs ≤ n → ERl xs (printItems xs)) ∧
    (∀ ms, msize ms ≤ n → ERm ms (printMembers ms)) := by
  intro n
  induction n with
  | zero =>
    refine ⟨?_, ?_, ?_⟩
    · intro v hv
      exact absurd hv (by have := vsize_pos v; omega)
    · intro xs hxs
      cases xs with
      | nil =>
        simp only [printItems]
        exact ERl.nil
      | cons x xs =>
        exfalso
        simp [isize] at hxs
    · intro ms hms
      cases ms with
      | nil =>
        simp only [printMembers]
        exact ERm.nil
      | cons p ms =>
        obtain ⟨nm, v⟩ := p
        exfalso
        simp [msize] at hms
  | succ n ih =>
    have hA : ∀ v, vsize v ≤ n + 1 → ERv v (printBody v) := by
      intro v hv
      cases v with
      | int m =>
        simp only [printBody]
        exact ERv.int m
      | bool b =>
        simp only [printBody]
        exact ERv.bool b
      | str s =>
        simp only [printBody]
        exact ERv.str s
      | double ip fr =>
        simp only [printBody]
        exact ERv.double ip fr
      | dateTime y mo d h mi s =>
        simp only [printBody]
        exact ERv.dateTime y mo d h mi s
      | base64 bs =>
        simp only [printBody]
        exact ERv.base64 bs
      | nil =>
        simp only [printBody]
        exact ERv.nil
      | array xs =>
        simp only [printBody]
        refine ERv.array xs _ (ih.2.1 xs ?_)
        simp [vsize] at hv
        omega
      | strct ms =>
        simp only [printBody]
        refine ERv.strct ms _ (ih.2.2 ms ?_)
        simp [vsize] at hv
        omega
    have hB : ∀ xs, isize xs ≤ n + 1 → ERl xs (printItems xs) := by
      intro xs hxs
      cases xs with
      | nil =>
        simp only [printItems]
        exact ERl.nil
      | cons v vs =>
        simp only [printItems]
        refine ERl.cons v _ vs _ (hA v ?_) (ih.2.1 vs ?_)
        · simp [isize] at hxs
          omega
        · simp [isize] at hxs
          have := vsize_pos v
          omega
    have hC : ∀ ms, msize ms ≤ n + 1 → ERm ms (printMembers ms) := by
      intro ms hms
      cases ms with
      | nil =>
        simp only [printMembers]
        exact ERm.nil
      | cons p ms2 =>
        obtain ⟨nm, v⟩ := p
        simp only [printMembers]
        refine ERm.cons nm v _ ms2 _ (hA v ?_) (ih.2.2 ms2 ?_)
        · simp [msize] at hms
          omega
        · simp [msize] at hms
          have := vsize_pos v
          omega
    exact ⟨hA, hB, hC⟩

theorem erAdqV (v : Value) : ERv v (printBody v) :=
  (erAdqN (vsize v)).1 v le_rfl

theorem erAdqP : ∀ args, ERp args (printParams args) := by
  intro args
  induction args with
  | nil =>
    simp only [printParams]
    exact ERp.nil
  | cons v vs ih =>
    have h2 := ERp.cons v (printBody v) vs (printParams vs) (erAdqV v) ih
    simpa [printParams, printValue, sl, List.append_assoc] using h2

theorem erAdqCall (nm : List Char) (args : List Value) : ERcall nm args (printCall nm args) := by
  have h2 := ERcall.mk nm args (printParams args) (erAdqP args)
  simpa [printCall, sl, List.append_assoc] using h2

theorem decode_printFault (v : Value) (hwfv : WFv v) :
    decode (printFault v) = interpretFault v := by
  have hvl := vsize_le_len v
  have hfuel : vsize v + 1 ≤ (printFault v).length := by
    simp [printFault, prologL, sl]
    omega
  have hdoc : ∀ F, vsize v + 1 ≤ F → pDocF F (printFault v) = .ok (.flt v) [] := by
    intro F hF
    have hone := (rtAll F).1 v
      ('<' :: '/' :: 'f' :: 'a' :: 'u' :: 'l' :: 't' :: '>' :: '<' :: '/' :: 'm' :: 'e' :: 't' :: 'h' :: 'o' :: 'd' :: 'R' :: 'e' :: 's' :: 'p' :: 'o' :: 'n' :: 's' :: 'e' :: '>' :: [])
      hwfv (by omega)
    conv_lhs => rw [show printFault v = prologL ++ sl "<methodResponse><fault><value>" ++
      printBody v ++ sl "</value></fault></methodResponse>" from rfl]
    simp [pDocF, pseq, pok, readTag, readTagA, expectP, expectA, prologL, sl,
      List.append_assoc, readText_lt, hone]
  simp [decode, hdoc _ hfuel]

theorem fault500_wf : WFv (Value.strct [(sl "faultCode", Value.int 500),
    (sl "faultString", Value.str (sl "Method not found"))]) := by
  refine WFv.strct _ (by decide) ?_
  intro p hp
  rcases List.mem_cons.1 hp with rfl | hp2
  · exact WFv.int 500
  · rcases List.mem_singleton.1 hp2 with rfl
    exact WFv.str _

set_option maxRecDepth 16384 in
theorem decode_fault500 : decode fault500doc = .fault 500 (sl "Method not found") := by
  have hdoc : fault500doc = printFault (Value.strct [(sl "faultCode", Value.int 500),
      (sl "faultString", Value.str (sl "Method not found"))]) := by decide
  rw [hdoc, decode_printFault _ fault500_wf]
  rfl

theorem callBuildRequest_ok (addr : List Char) (req : HttpReq)
    (h : callBuildRequest addr = .ok req) :
    req.url = sl "text/xml" ∧ req.method = (if addr = [] then sl "GET" else addr) := by
  simp only [callBuildRequest, newRequestWithContext] at h
  rcases Bool.eq_false_or_eq_true
      ((if addr = [] then sl "GET" else addr).all validMethodChar) with hb | hb
  · simp only [hb, if_true] at h
    cases h
    exact ⟨rfl, rfl⟩
  · simp [hb] at h

theorem wfArr1 (x : Value) (hx : WFv x) : WFv (.array [x]) := by
  refine WFv.array _ ?_
  intro v hv
  rcases List.mem_singleton.1 hv with rfl
  exact hx

theorem wfArr2 (x y : Value) (hx : WFv x) (hy : WFv y) : WFv (.array [x, y]) := by
  refine WFv.array _ ?_
  intro v hv
  rcases List.mem_cons.1 hv with rfl | hv
  · exact hx
  rcases List.mem_singleton.1 hv with rfl
  exact hy

theorem wfArr3 (x y z : Value) (hx : WFv x) (hy : WFv y) (hz : WFv z) :
    WFv (.array [x, y, z]) := by
  refine WFv.array _ ?_
  intro v hv
  rcases List.mem_cons.1 hv with rfl | hv
  · exact hx
  rcases List.mem_cons.1 hv with rfl | hv
  · exact hy
  rcases List.mem_singleton.1 hv with rfl
  exact hz

theorem wfK : WFv (Value.strct [(sl "k", Value.str (sl "x"))]) := by
  refine WFv.strct _ (by decide) ?_
  intro p hp
  rcases List.mem_singleton.1 hp with rfl
  exact WFv.str _

/-- C1: the claim says every `Client.Call` issues an HTTP POST to the
configured address.  The code (src/xmlrpc/client.go line 78) instead
passes the address as the method argument and `text/xml` as the URL of
`http.NewRequestWithContext`: for the documented endpoint address the
request construction fails with an invalid-method error and no request
is sent at all, and whenever construction does succeed the outgoing
method is the address itself (never `POST`, unless the address is the
literal string `POST`) and the URL is `text/xml`. -/
theorem c1_call_request_bug (addr : List Char) (req : HttpReq)
    (hok : callBuildRequest addr = .ok req) :
    req.url = sl "text/xml" ∧ (addr ≠ [] → req.method = addr) ∧
      callBuildRequest (sl "http://localhost:8000/RPC2") =
        .error (.invalidMethod (sl "http://localhost:8000/RPC2")) := by
  obtain ⟨h1, h2⟩ := callBuildRequest_ok addr req hok
  refine ⟨h1, ?_, by rfl⟩
  intro hne
  rw [h2, if_neg hne]

theorem c1_call_request_bug_w :
    callBuildRequest (sl "X") = .ok ⟨sl "X", sl "text/xml"⟩ ∧
      ((⟨sl "X", sl "text/xml"⟩ : HttpReq).url = sl "text/xml" ∧
        (sl "X" ≠ [] → (⟨sl "X", sl "text/xml"⟩ : HttpReq).method = sl "X") ∧
        callBuildRequest (sl "http://localhost:8000/RPC2") =
          .error (.invalidMethod (sl "http://localhost:8000/RPC2"))) :=
  ⟨by rfl, c1_call_request_bug (sl "X") ⟨sl "X", sl "text/xml"⟩ (by rfl)⟩

/-- C2: a response document decoding to a fault makes `Client.Call`
return a non-nil error carrying the remote fault code and message, with
no value, and a fault is never turned into a success; in particular the
concrete fault document with code 500 and message `Method not found`
decodes to that fault and not to a success. -/
theorem c2_fault_error :
    (∀ s c m, decode s = .fault c m →
      (callFinish s).2 = some (.faultErr none c m) ∧ (callFinish s).1 = none ∧
        ∀ v, decode s ≠ .success v) ∧
    decode fault500doc = .fault 500 (sl "Method not found") := by
  constructor
  · intro s c m h
    refine ⟨by simp [callFinish, unmarshalParts, h], by simp [callFinish, unmarshalParts, h], ?_⟩
    intro v hv
    rw [h] at hv
    exact DecodeResult.noConfusion hv
  · exact decode_fault500

theorem c2_fault_error_w :
    (callFinish fault500doc).2 = some (.faultErr none 500 (sl "Method not found")) ∧
      (callFinish fault500doc).1 = none :=
  ⟨((c2_fault_error).1 fault500doc 500 (sl "Method not found") (c2_fault_error).2).1,
   ((c2_fault_error).1 fault500doc 500 (sl "Method not found") (c2_fault_error).2).2.1⟩

/-- C3: decoding the encoding of a call carrying a well-formed value
returns exactly that value, and in particular a string value containing
the escaped characters round-trips unchanged (the second conjunct holds
for every string payload, including those containing the five special
characters). -/
theorem c3_roundtrip (nm : List Char) (v : Value) (hwfv : WFv v)
    (hlt : '<' ∉ nm) (hamp : '&' ∉ nm) :
    decode (printCall nm [v]) = .success v ∧
      ∀ s, decode (printCall nm [Value.str s]) = .success (.str s) := by
  refine ⟨decode_printCall nm v hwfv hlt hamp, ?_⟩
  intro s
  exact decode_printCall nm (.str s) (WFv.str s) hlt hamp

theorem c3_roundtrip_w :
    decode (printCall (sl "m") [Value.str ('&' :: '<' :: '>' :: aposC :: quoteC :: [])]) =
      .success (.str ('&' :: '<' :: '>' :: aposC :: quoteC :: [])) :=
  (c3_roundtrip (sl "m") (Value.str ('&' :: '<' :: '>' :: aposC :: quoteC :: []))
    (WFv.str _) (by decide) (by decide)).1

/-- C4: extraction is strict by tag with exactly one coercion: `asInt`
on a string parses base-10 text (so the string `42` yields 42 and the
string `abc` fails with a type mismatch), and every other cross-tag
extraction fails with a type mismatch carrying the expected and actual
tags. -/
theorem c4_extraction :
    asInt (.str (sl "42")) = .ok 42 ∧
    asInt (.str (sl "abc")) = .error (.typeMismatch .int .str) ∧
    (∀ v, tagOf v ≠ .int → tagOf v ≠ .str →
      asInt v = .error (.typeMismatch .int (tagOf v))) ∧
    (∀ v, tagOf v ≠ .str → asString v = .error (.typeMismatch .str (tagOf v))) ∧
    (∀ v, tagOf v ≠ .bool → asBool v = .error (.typeMismatch .bool (tagOf v))) ∧
    (∀ v, tagOf v ≠ .double → asDouble v = .error (.typeMismatch .double (tagOf v))) ∧
    (∀ v, tagOf v ≠ .array → asArray v = .error (.typeMismatch .array (tagOf v))) ∧
    (∀ v, tagOf v ≠ .strct → asStruct v = .error (.typeMismatch .strct (tagOf v))) := by
  refine ⟨by rfl, by rfl, ?_, ?_, ?_, ?_, ?_, ?_⟩
  · intro v h1 h2
    cases v <;> first | rfl | exact absurd rfl h1 | exact absurd rfl h2
  · intro v h
    cases v <;> first | rfl | exact absurd rfl h
  · intro v h
    cases v <;> first | rfl | exact absurd rfl h
  · intro v h
    cases v <;> first | rfl | exact absurd rfl h
  · intro v h
    cases v <;> first | rfl | exact absurd rfl h
  · intro v h
    cases v <;> first | rfl | exact absurd rfl h

theorem c4_extraction_w :
    tagOf (Value.int 0) ≠ .str ∧
      asString (Value.int 0) = .error (.typeMismatch .str (tagOf (Value.int 0))) :=
  ⟨by decide, (c4_extraction).2.2.2.1 (Value.int 0) (by decide)⟩

/-- C5: every strict prefix of a document that decodes successfully or
to a fault (in particular one cut off inside an open struct) fails with
the distinct incomplete-input error, and is never a success wrapping a
partial value. -/
theorem c5_truncation (d u w : List Char) (hduw : d = u ++ w) (hw : w ≠ [])
    (hval : (∃ v, decode d = .success v) ∨ (∃ c m, decode d = .fault c m)) :
    decode u = .failure .incomplete ∧ ∀ v, decode u ≠ .success v := by
  have h := decode_prefix_incomplete d u w hduw hw hval
  refine ⟨h, ?_⟩
  intro v hv
  rw [h] at hv
  exact DecodeResult.noConfusion hv

theorem c5_truncation_w :
    decode (List.take 80 (printResponse (Value.strct [(sl "k", Value.str (sl "x"))]))) =
      .failure .incomplete :=
  (c5_truncation (printResponse (Value.strct [(sl "k", Value.str (sl "x"))]))
    (List.take 80 (printResponse (Value.strct [(sl "k", Value.str (sl "x"))])))
    (List.drop 80 (printResponse (Value.strct [(sl "k", Value.str (sl "x"))])))
    (List.take_append_drop 80 _).symm
    (by decide)
    (Or.inl ⟨_, decode_printResponse _ wfK⟩)).1

/-- C6: decoding preserves array order exactly at every nesting level
(the multicall shape decodes to the nested arrays in the given order),
and `GetTorrents` maps the i-th element of each per-item row to the
torrent field corresponding to the i-th query of the `d.multicall2`
request field list. -/
theorem c6_multicall (a b c d e f : Value)
    (ha : WFv a) (hb : WFv b) (hc : WFv c) (hd : WFv d) (he : WFv e) (hf : WFv f) :
    decode (printResponse (.array [.array [.array [a, b, c], .array [d, e, f]]])) =
      .success (.array [.array [.array [a, b, c], .array [d, e, f]]]) ∧
    (∀ (nm hash lbl dir : List Char) (size compl rat cre fin sta : Int) (act : GoVal),
      rowToTorrent [.gS nm, .gI size, .gS hash, .gS lbl, .gS dir, act,
          .gI compl, .gI rat, .gI cre, .gI fin, .gI sta] =
        .ok { Hash := hash, Name := nm, Path := dir, Size := size, Label := lbl,
              Completed := decide (0 < compl), Ratio := (rat : ℚ) / 1000,
              Created := .unix cre, Started := .unix sta, Finished := .unix fin }) ∧
    getTorrentsArgs [] = [] :: [] :: getTorrentsFields ∧
    getTorrentsFields = [sl "d.name=", sl "d.size_bytes=", sl "d.hash=", sl "d.custom1=",
      sl "d.directory=", sl "d.is_active=", sl "d.complete=", sl "d.ratio=",
      sl "d.creation_date=", sl "d.timestamp.finished=", sl "d.timestamp.started="] := by
  refine ⟨decode_printResponse _
    (wfArr1 _ (wfArr2 _ _ (wfArr3 a b c ha hb hc) (wfArr3 d e f hd he hf))), ?_, rfl, rfl⟩
  intro nm hash lbl dir size compl rat cre fin sta act
  rfl

theorem c6_multicall_w :
    decode (printResponse (Value.array [Value.array [Value.array
        [Value.int 1, Value.int 2, Value.int 3],
      Value.array [Value.int 4, Value.int 5, Value.int 6]]])) =
      .success (Value.array [Value.array [Value.array
        [Value.int 1, Value.int 2, Value.int 3],
      Value.array [Value.int 4, Value.int 5, Value.int 6]]]) :=
  (c6_multicall (Value.int 1) (Value.int 2) (Value.int 3)
    (Value.int 4) (Value.int 5) (Value.int 6)
    (WFv.int 1) (WFv.int 2) (WFv.int 3) (WFv.int 4) (WFv.int 5) (WFv.int 6)).1

/-- C7: encoding is deterministic: any two output documents related to
the same call name and argument list by the relational encoder are
byte-for-byte identical. -/
theorem c7_encode_deterministic (nm : List Char) (args : List Value) (out out2 : List Char)
    (h1 : ERcall nm args out) (h2 : ERcall nm args out2) : out = out2 := by
  cases h1
  rename_i o1 hp1
  cases h2
  rename_i o2 hp2
  rw [erDetP args o1 o2 hp1 hp2]

theorem c7_encode_deterministic_w :
    printCall (sl "m") [Value.int 7] = printCall (sl "m") [Value.int 7] :=
  c7_encode_deterministic (sl "m") [Value.int 7] _ _
    (erAdqCall (sl "m") [Value.int 7]) (erAdqCall (sl "m") [Value.int 7])

/-- C8: when every per-field call of `GetTorrent` succeeds, the
returned torrent has the zero time in `Started`, and `Created` holds
the result of the final `d.timestamp.started` call, overwriting the
earlier `d.creation_date` result (src/unnamed/part_000 line 457). -/
theorem c8_getTorrent_started (hash nm lbl dir : List Char)
    (size compl rat cre fin sta : Int) :
    getTorrent (gtOracle nm lbl dir size compl rat cre fin sta) hash =
      .done { Hash := hash, Name := nm, Path := dir, Size := size, Label := lbl,
              Completed := decide (0 < compl), Ratio := (rat : ℚ) / 1000,
              Created := .unix sta, Started := .zero, Finished := .unix fin } none := by
  rfl

/-- C9 (amended): the scalar accessors never panic on any decoded value
other than the empty array: every non-empty-array input yields a result
or a typed error.  The original claim, which included the empty array,
is refuted by the counterexample theorem. -/
theorem c9_accessor_total (v : GoVal) (hne : v ≠ .gA []) :
    stringScalarResult v ≠ .panicked ∧ intScalarResult v ≠ .panicked := by
  cases v with
  | gI n => exact ⟨by simp [stringScalarResult], by simp [intScalarResult]⟩
  | gS s => exact ⟨by simp [stringScalarResult], by simp [intScalarResult]⟩
  | gB b => exact ⟨by simp [stringScalarResult], by simp [intScalarResult]⟩
  | gA xs =>
    cases xs with
    | nil => exact absurd rfl hne
    | cons x xs =>
      cases x <;> exact ⟨by simp [stringScalarResult], by simp [intScalarResult]⟩

theorem c9_accessor_total_w :
    (GoVal.gB true ≠ .gA []) ∧ (stringScalarResult (.gB true) ≠ .panicked ∧
      intScalarResult (.gB true) ≠ .panicked) :=
  ⟨fun h => GoVal.noConfusion h, c9_accessor_total (.gB true) (fun h => GoVal.noConfusion h)⟩

/-- C9 counterexample: on a response decoding to an empty array, the
shared accessor body indexes the first element of an empty slice and
panics, refuting the claim that the accessors are total over every
decoded response shape. -/
theorem c9_empty_array_panics :
    stringScalarResult (.gA []) = .panicked ∧ intScalarResult (.gA []) = .panicked :=
  ⟨rfl, rfl⟩

/-- C10: `SetLabel` mutates only its by-value copy: after any run the
caller's torrent is unchanged field-for-field, while the callee copy
carries the new label and the remote call receives the hash and the new
label. -/
theorem c10_setlabel_frame (res : Except GoErr GoVal) (t : Torrent) (lbl : List Char) :
    (setLabelRun res t lbl).callerAfter = t ∧
      (setLabelRun res t lbl).callee.Label = lbl ∧
      (setLabelRun res t lbl).args = [.gS t.Hash, .gS lbl] :=
  ⟨rfl, rfl, rfl⟩
